import Mathlib

/-!
Verification of the dasbus type/variant marshalling engine and dispatch
machinery against its natural-language specification.

The development shallowly embeds the Python sources:
  * src/dasbus/typing.py       (DBusType, get_variant, unwrap_variant, and the
                                handle/fdlist transposition functions)
  * src/src/dasbus/error.py    (ErrorMapper and error rules)
  * src/dasbus/client/handler.py (GLibClient and ClientObjectHandler)
  * src/dasbus/client/property.py (PropertyProxy)
  * src/dasbus/signal.py       (Signal)

GLib variants are embedded as typed trees (`GVar`), native Python values as
`PyVal`.  Machine-level details that no claim depends on (actual file
descriptors, the GLib C layer, the event loop) are abstracted; every function
below mirrors the control flow of the Python function of the same name.
-/

namespace Dasbus

/-- A D-Bus type signature, parsed form of the wire signature grammar:
basic codes `y b n q i u x t d h s o`, the variant code `v`, and the three
container forms: a tuple `(...)`, an array `a<sig>` and a dictionary
`a{<key><val>}` whose key is a single basic code.  Dispatch on a signature
string prefix in the Python code (`startswith('(')`, `startswith('a{')`,
`startswith('a')`, `startswith('v')`, otherwise basic) corresponds exactly to
dispatch on the head constructor of this type. -/
inductive Sig where
  | basic (c : Char)
  | var
  | tup (items : List Sig)
  | arr (elem : Sig)
  | dict (key : Char) (val : Sig)

mutual

/-- Boolean equality of signatures (string equality of type strings). -/
def Sig.beq : Sig → Sig → Bool
  | .basic a, .basic b => a == b
  | .var, .var => true
  | .tup as, .tup bs => Sig.beqList as bs
  | .arr a, .arr b => Sig.beq a b
  | .dict ka va, .dict kb vb => ka == kb && Sig.beq va vb
  | _, _ => false

/-- Component-wise equality of signature lists. -/
def Sig.beqList : List Sig → List Sig → Bool
  | [], [] => true
  | a :: as, b :: bs => Sig.beq a b && Sig.beqList as bs
  | _, _ => false

end

mutual

theorem Sig.beq_iff : (a b : Sig) → (Sig.beq a b = true ↔ a = b)
  | .basic a, .basic b => by simp [Sig.beq]
  | .basic _, .var | .basic _, .tup _ | .basic _, .arr _ | .basic _, .dict _ _ => by
      simp [Sig.beq]
  | .var, .basic _ | .var, .tup _ | .var, .arr _ | .var, .dict _ _ => by simp [Sig.beq]
  | .var, .var => by simp [Sig.beq]
  | .tup as, .tup bs => by simp [Sig.beq, Sig.beqList_iff as bs]
  | .tup _, .basic _ | .tup _, .var | .tup _, .arr _ | .tup _, .dict _ _ => by simp [Sig.beq]
  | .arr a, .arr b => by simp [Sig.beq, Sig.beq_iff a b]
  | .arr _, .basic _ | .arr _, .var | .arr _, .tup _ | .arr _, .dict _ _ => by simp [Sig.beq]
  | .dict ka va, .dict kb vb => by simp [Sig.beq, Sig.beq_iff va vb, and_comm]
  | .dict _ _, .basic _ | .dict _ _, .var | .dict _ _, .tup _ | .dict _ _, .arr _ => by
      simp [Sig.beq]

theorem Sig.beqList_iff : (as bs : List Sig) → (Sig.beqList as bs = true ↔ as = bs)
  | [], [] => by simp [Sig.beqList]
  | [], _ :: _ | _ :: _, [] => by simp [Sig.beqList]
  | a :: as, b :: bs => by
      simp [Sig.beqList, Sig.beq_iff a b, Sig.beqList_iff as bs]

end

instance : DecidableEq Sig := fun a b => decidable_of_iff _ (Sig.beq_iff a b)

/-- A GLib variant: a typed value tree.  Numeric basic values (including
booleans, doubles and `h` handles, whose payloads are opaque to all the
operations modelled here) carry an `Int` payload together with their type
code; string-like basic values (`s`, `o`) carry a `String`.  A `box` node is a
value of type `v` holding another variant; dictionaries are ordered lists of
entries whose keys are basic variants. -/
inductive GVar where
  | int (c : Char) (n : Int)
  | str (c : Char) (s : String)
  | box (v : GVar)
  | tup (items : List GVar)
  | arr (elem : Sig) (items : List GVar)
  | dict (key : Char) (val : Sig) (entries : List (GVar × GVar))

/-- A native Python value as produced by unpacking/unwrapping a variant and as
accepted by the `Variant` constructor: numbers, strings, tuples, lists,
dictionaries (insertion-ordered association lists, like Python dicts), and
GLib `Variant` objects held as first-class Python values (`vart`). -/
inductive PyVal where
  | int (n : Int)
  | str (s : String)
  | vart (v : GVar)
  | tup (items : List PyVal)
  | list (items : List PyVal)
  | dict (entries : List (PyVal × PyVal))

mutual

/-- The wire type of a variant, as returned by `Variant.get_type_string`. -/
def GVar.sig : GVar → Sig
  | .int c _ => .basic c
  | .str c _ => .basic c
  | .box _ => .var
  | .tup items => .tup (GVar.sigList items)
  | .arr elem _ => .arr elem
  | .dict k v _ => .dict k v

/-- The signatures of the children of a tuple variant
(`Variant.split_signature` applied to a tuple type string). -/
def GVar.sigList : List GVar → List Sig
  | [] => []
  | v :: vs => v.sig :: GVar.sigList vs

end

/-- `VariantType.is_basic`: true exactly for the single-character basic codes,
false for `v` and for every container. -/
def Sig.is_basic : Sig → Bool
  | .basic _ => true
  | _ => false

/-- Python `==` on the basic values that occur as dictionary keys. -/
def pyEqBasic : PyVal → PyVal → Bool
  | .int a, .int b => a == b
  | .str a, .str b => a == b
  | _, _ => false

/-- Python dictionary insertion `d[k] = v`: overwrite the value at an existing
equal key (keeping the original key and its position) or append a new entry. -/
def dictInsert : List (PyVal × PyVal) → PyVal → PyVal → List (PyVal × PyVal)
  | [], k, v => [(k, v)]
  | (k0, v0) :: rest, k, v =>
      if pyEqBasic k0 k then (k0, v) :: rest
      else (k0, v0) :: dictInsert rest k v

/-- Building a Python dictionary by inserting a sequence of key/value pairs in
order into an initially empty dictionary. -/
def dictOfList (l : List (PyVal × PyVal)) : List (PyVal × PyVal) :=
  l.foldl (fun acc e => dictInsert acc e.1 e.2) []

mutual

/-- GLib `Variant.unpack`: recursively decompose a variant into a native
Python object, opening boxed variants. -/
def GVar.unpack : GVar → PyVal
  | .int _ n => .int n
  | .str _ s => .str s
  | .box v => v.unpack
  | .tup items => .tup (GVar.unpackList items)
  | .arr _ items => .list (GVar.unpackList items)
  | .dict _ _ es => .dict (dictOfList (GVar.unpackEntries es))

/-- `unpack` mapped over the children of a container. -/
def GVar.unpackList : List GVar → List PyVal
  | [] => []
  | v :: vs => v.unpack :: GVar.unpackList vs

/-- `unpack` applied to both components of each dictionary entry. -/
def GVar.unpackEntries : List (GVar × GVar) → List (PyVal × PyVal)
  | [] => []
  | e :: es => (e.1.unpack, e.2.unpack) :: GVar.unpackEntries es

end

mutual

/-- `dasbus.typing.unwrap_variant`: unpack only the topmost layer of a
variant.  Dispatch follows the signature-string prefix tests of the source:
a tuple unwraps its children in order; a dictionary is rebuilt as a Python
dict by iterating its entries, fully unpacking each key and unwrapping each
value; a non-dictionary array unwraps its elements in order; a variant
(`v`) yields the boxed inner variant itself, unopened; a basic value yields
its scalar payload. -/
def unwrap_variant : GVar → PyVal
  | .tup items => .tup (unwrapList items)
  | .dict _ _ es => .dict (dictOfList (unwrapEntries es))
  | .arr _ items => .list (unwrapList items)
  | .box v => .vart v
  | .int _ n => .int n
  | .str _ s => .str s

/-- `unwrap_variant` applied to each child of a tuple or array. -/
def unwrapList : List GVar → List PyVal
  | [] => []
  | v :: vs => unwrap_variant v :: unwrapList vs

/-- One dictionary entry becomes `(key.unpack(), unwrap_variant(value))`. -/
def unwrapEntries : List (GVar × GVar) → List (PyVal × PyVal)
  | [] => []
  | e :: es => (e.1.unpack, unwrap_variant e.2) :: unwrapEntries es

end

/-- The numeric basic type codes (booleans, bytes, all integer widths,
doubles and unix-fd handles are all carried as numbers). -/
def numericCodes : List Char := ['y', 'b', 'n', 'q', 'i', 'u', 'x', 't', 'd', 'h']

/-- The string-like basic type codes. -/
def stringCodes : List Char := ['s', 'o']

/-- Construction of a basic variant from a type code and a native payload;
`none` models the `TypeError` GLib raises on a payload of the wrong shape. -/
def mkBasic (c : Char) (v : PyVal) : Option GVar :=
  match v with
  | .int n => if numericCodes.contains c then some (.int c n) else none
  | .str s => if stringCodes.contains c then some (.str c s) else none
  | _ => none

mutual

/-- `dasbus.typing.get_variant` restricted to an already-parsed type string:
the GLib `Variant(type_string, value)` constructor, converting a native
Python value into a typed variant.  `none` models the `TypeError` raised
when the value does not match the signature. -/
def get_variant : Sig → PyVal → Option GVar
  | .basic c, v => mkBasic c v
  | .var, .vart w => some (.box w)
  | .var, _ => none
  | .tup ss, .tup vs =>
      match getTupItems ss vs with
      | some ws => some (.tup ws)
      | none => none
  | .arr elem, .list vs =>
      match getArrItems elem vs with
      | some ws => some (.arr elem ws)
      | none => none
  | .dict kt vt, .dict es =>
      match getDictEntries kt vt es with
      | some ws => some (.dict kt vt ws)
      | none => none
  | _, _ => none

/-- Conversion of tuple components, position by position. -/
def getTupItems : List Sig → List PyVal → Option (List GVar)
  | [], [] => some []
  | s :: ss, v :: vs =>
      match get_variant s v, getTupItems ss vs with
      | some w, some ws => some (w :: ws)
      | _, _ => none
  | _, _ => none

/-- Conversion of array elements against the fixed element signature. -/
def getArrItems (elem : Sig) : List PyVal → Option (List GVar)
  | [] => some []
  | v :: vs =>
      match get_variant elem v, getArrItems elem vs with
      | some w, some ws => some (w :: ws)
      | _, _ => none

/-- Conversion of dictionary entries: each key against the basic key code,
each value against the value signature. -/
def getDictEntries (kt : Char) (vt : Sig) : List (PyVal × PyVal) → Option (List (GVar × GVar))
  | [] => some []
  | (k, v) :: es =>
      match mkBasic kt k, get_variant vt v, getDictEntries kt vt es with
      | some wk, some wv, some ws => some ((wk, wv) :: ws)
      | _, _, _ => none

end

/-- Python list indexing `l[i]` with an `int` index: non-negative indices count
from the front, negative indices from the back; `none` models the
`IndexError` raised when the index is out of range in either direction. -/
def pyIndex (l : List Int) (i : Int) : Option Int :=
  if 0 ≤ i then l.get? i.toNat
  else if (-i).toNat ≤ l.length then l.get? (l.length - (-i).toNat)
  else none

/-! ### Size measures

Custom size functions used as termination measures for the transposition
functions, which recurse through `unwrap_variant` / `get_variant` round
trips rather than through syntactic subterms. -/

mutual

/-- Number of nodes of a variant tree. -/
def GVar.size : GVar → Nat
  | .int _ _ => 1
  | .str _ _ => 1
  | .box v => v.size + 1
  | .tup items => GVar.sizeList items + 1
  | .arr _ items => GVar.sizeList items + 1
  | .dict _ _ es => GVar.sizeEntries es + 1

/-- Total size of a list of variants (one node per cons cell). -/
def GVar.sizeList : List GVar → Nat
  | [] => 0
  | v :: vs => v.size + GVar.sizeList vs + 1

/-- Total size of a list of variant entries (one node per cons cell). -/
def GVar.sizeEntries : List (GVar × GVar) → Nat
  | [] => 0
  | e :: es => e.1.size + e.2.size + GVar.sizeEntries es + 1

end

mutual

/-- Number of nodes of a native value tree; a held variant object counts its
own tree. -/
def PyVal.size : PyVal → Nat
  | .int _ => 1
  | .str _ => 1
  | .vart v => v.size + 1
  | .tup items => PyVal.sizeList items + 1
  | .list items => PyVal.sizeList items + 1
  | .dict es => PyVal.sizeEntries es + 1

/-- Total size of a list of native values (one node per cons cell). -/
def PyVal.sizeList : List PyVal → Nat
  | [] => 0
  | v :: vs => v.size + PyVal.sizeList vs + 1

/-- Total size of a list of native key/value pairs (one node per cons cell). -/
def PyVal.sizeEntries : List (PyVal × PyVal) → Nat
  | [] => 0
  | e :: es => e.1.size + e.2.size + PyVal.sizeEntries es + 1

end

theorem GVar.size_pos : (v : GVar) → 0 < v.size
  | .int _ _ | .str _ _ => by simp [GVar.size]
  | .box _ | .tup _ | .arr _ _ | .dict _ _ _ => by simp [GVar.size]

theorem PyVal.size_positive : (v : PyVal) → 0 < v.size
  | .int _ | .str _ => by simp [PyVal.size]
  | .vart _ | .tup _ | .list _ | .dict _ => by simp [PyVal.size]

theorem dictInsert_size (k v : PyVal) :
    (es : List (PyVal × PyVal)) →
      PyVal.sizeEntries (dictInsert es k v) ≤ PyVal.sizeEntries es + k.size + v.size + 1
  | [] => by simp [dictInsert, PyVal.sizeEntries]
  | (k0, v0) :: rest => by
      by_cases h : pyEqBasic k0 k
      · have := PyVal.size_positive v0
        have := PyVal.size_positive k
        simp [dictInsert, h, PyVal.sizeEntries]
        omega
      · have := dictInsert_size k v rest
        simp [dictInsert, h, PyVal.sizeEntries]
        omega

theorem dictOfList_size_aux :
    (l : List (PyVal × PyVal)) → (acc : List (PyVal × PyVal)) →
      PyVal.sizeEntries (l.foldl (fun acc e => dictInsert acc e.1 e.2) acc) ≤
        PyVal.sizeEntries acc + PyVal.sizeEntries l
  | [], acc => by simp [PyVal.sizeEntries]
  | (k, v) :: rest, acc => by
      have h1 := dictOfList_size_aux rest (dictInsert acc k v)
      have h2 := dictInsert_size k v acc
      simp [List.foldl, PyVal.sizeEntries] at h1 ⊢
      omega

theorem dictOfList_size (l : List (PyVal × PyVal)) :
    PyVal.sizeEntries (dictOfList l) ≤ PyVal.sizeEntries l := by
  have := dictOfList_size_aux l []
  simpa [dictOfList, PyVal.sizeEntries] using this

mutual

theorem GVar.unpack_size : (v : GVar) → (GVar.unpack v).size ≤ v.size
  | .int _ _ => by simp [GVar.unpack, GVar.size, PyVal.size]
  | .str _ _ => by simp [GVar.unpack, GVar.size, PyVal.size]
  | .box v => by
      have := GVar.unpack_size v
      simp [GVar.unpack, GVar.size]
      omega
  | .tup items => by
      have := GVar.unpackList_size items
      simp [GVar.unpack, GVar.size, PyVal.size]
      omega
  | .arr _ items => by
      have := GVar.unpackList_size items
      simp [GVar.unpack, GVar.size, PyVal.size]
      omega
  | .dict _ _ es => by
      have h1 := GVar.unpackEntries_size es
      have h2 := dictOfList_size (GVar.unpackEntries es)
      simp [GVar.unpack, GVar.size, PyVal.size]
      omega

theorem GVar.unpackList_size :
    (l : List GVar) → PyVal.sizeList (GVar.unpackList l) ≤ GVar.sizeList l
  | [] => by simp [GVar.unpackList, PyVal.sizeList, GVar.sizeList]
  | v :: vs => by
      have h1 := GVar.unpack_size v
      have h2 := GVar.unpackList_size vs
      simp [GVar.unpackList, PyVal.sizeList, GVar.sizeList]
      omega

theorem GVar.unpackEntries_size :
    (l : List (GVar × GVar)) → PyVal.sizeEntries (GVar.unpackEntries l) ≤ GVar.sizeEntries l
  | [] => by simp [GVar.unpackEntries, PyVal.sizeEntries, GVar.sizeEntries]
  | e :: es => by
      have h1 := GVar.unpack_size e.1
      have h2 := GVar.unpack_size e.2
      have h3 := GVar.unpackEntries_size es
      simp [GVar.unpackEntries, PyVal.sizeEntries, GVar.sizeEntries]
      omega

end

mutual

theorem unwrap_variant_size : (v : GVar) → (unwrap_variant v).size ≤ v.size
  | .int _ _ => by simp [unwrap_variant, GVar.size, PyVal.size]
  | .str _ _ => by simp [unwrap_variant, GVar.size, PyVal.size]
  | .box v => by simp [unwrap_variant, GVar.size, PyVal.size]
  | .tup items => by
      have := unwrapList_size items
      simp [unwrap_variant, GVar.size, PyVal.size]
      omega
  | .arr _ items => by
      have := unwrapList_size items
      simp [unwrap_variant, GVar.size, PyVal.size]
      omega
  | .dict _ _ es => by
      have h1 := unwrapEntries_size es
      have h2 := dictOfList_size (unwrapEntries es)
      simp [unwrap_variant, GVar.size, PyVal.size]
      omega

theorem unwrapList_size :
    (l : List GVar) → PyVal.sizeList (unwrapList l) ≤ GVar.sizeList l
  | [] => by simp [unwrapList, PyVal.sizeList, GVar.sizeList]
  | v :: vs => by
      have h1 := unwrap_variant_size v
      have h2 := unwrapList_size vs
      simp [unwrapList, PyVal.sizeList, GVar.sizeList]
      omega

theorem unwrapEntries_size :
    (l : List (GVar × GVar)) → PyVal.sizeEntries (unwrapEntries l) ≤ GVar.sizeEntries l
  | [] => by simp [unwrapEntries, PyVal.sizeEntries, GVar.sizeEntries]
  | e :: es => by
      have h1 := GVar.unpack_size e.1
      have h2 := unwrap_variant_size e.2
      have h3 := unwrapEntries_size es
      simp [unwrapEntries, PyVal.sizeEntries, GVar.sizeEntries]
      omega

end

theorem mkBasic_size {c : Char} {v : PyVal} {w : GVar} (h : mkBasic c v = some w) :
    w.size ≤ v.size := by
  cases v with
  | int n =>
      simp [mkBasic] at h
      rcases h with ⟨_, rfl⟩
      simp [GVar.size, PyVal.size]
  | str s =>
      simp [mkBasic] at h
      rcases h with ⟨_, rfl⟩
      simp [GVar.size, PyVal.size]
  | vart v => simp [mkBasic] at h
  | tup items => simp [mkBasic] at h
  | list items => simp [mkBasic] at h
  | dict es => simp [mkBasic] at h

mutual

theorem get_variant_size :
    (s : Sig) → (v : PyVal) → (w : GVar) → get_variant s v = some w → w.size ≤ v.size
  | .basic c, v, w => fun h => mkBasic_size (by simpa [get_variant] using h)
  | .var, .vart u, w => by
      intro h
      simp [get_variant] at h
      subst h
      simp [GVar.size, PyVal.size]
  | .var, .int _, _ | .var, .str _, _ | .var, .tup _, _ | .var, .list _, _
  | .var, .dict _, _ => by intro h; simp [get_variant] at h
  | .tup ss, v, w => by
      intro h
      cases v with
      | tup vs =>
          revert h
          simp only [get_variant]
          cases hws : getTupItems ss vs with
          | none => intro h; simp at h
          | some ws =>
              intro h
              simp at h
              subst h
              have := getTupItems_size ss vs ws hws
              simp [GVar.size, PyVal.size]
              omega
      | int _ | str _ | vart _ | list _ | dict _ => simp [get_variant] at h
  | .arr elem, v, w => by
      intro h
      cases v with
      | list vs =>
          revert h
          simp only [get_variant]
          cases hws : getArrItems elem vs with
          | none => intro h; simp at h
          | some ws =>
              intro h
              simp at h
              subst h
              have := getArrItems_size elem vs ws hws
              simp [GVar.size, PyVal.size]
              omega
      | int _ | str _ | vart _ | tup _ | dict _ => simp [get_variant] at h
  | .dict kt vt, v, w => by
      intro h
      cases v with
      | dict es =>
          revert h
          simp only [get_variant]
          cases hws : getDictEntries kt vt es with
          | none => intro h; simp at h
          | some ws =>
              intro h
              simp at h
              subst h
              have := getDictEntries_size kt vt es ws hws
              simp [GVar.size, PyVal.size]
              omega
      | int _ | str _ | vart _ | tup _ | list _ => simp [get_variant] at h

theorem getTupItems_size :
    (ss : List Sig) → (vs : List PyVal) → (ws : List GVar) →
      getTupItems ss vs = some ws → GVar.sizeList ws ≤ PyVal.sizeList vs
  | [], [], ws => by
      intro h
      simp [getTupItems] at h
      subst h
      simp [GVar.sizeList, PyVal.sizeList]
  | [], _ :: _, _ => by intro h; simp [getTupItems] at h
  | _ :: _, [], _ => by intro h; simp [getTupItems] at h
  | s :: ss, v :: vs, ws => by
      intro h
      revert h
      simp only [getTupItems]
      cases hw : get_variant s v with
      | none => intro h; simp at h
      | some w =>
          cases hrest : getTupItems ss vs with
          | none => intro h; simp at h
          | some rest =>
              intro h
              simp at h
              subst h
              have h1 := get_variant_size s v w hw
              have h2 := getTupItems_size ss vs rest hrest
              simp [GVar.sizeList, PyVal.sizeList]
              omega

theorem getArrItems_size :
    (elem : Sig) → (vs : List PyVal) → (ws : List GVar) →
      getArrItems elem vs = some ws → GVar.sizeList ws ≤ PyVal.sizeList vs
  | _, [], ws => by
      intro h
      simp [getArrItems] at h
      subst h
      simp [GVar.sizeList, PyVal.sizeList]
  | elem, v :: vs, ws => by
      intro h
      revert h
      simp only [getArrItems]
      cases hw : get_variant elem v with
      | none => intro h; simp at h
      | some w =>
          cases hrest : getArrItems elem vs with
          | none => intro h; simp at h
          | some rest =>
              intro h
              simp at h
              subst h
              have h1 := get_variant_size elem v w hw
              have h2 := getArrItems_size elem vs rest hrest
              simp [GVar.sizeList, PyVal.sizeList]
              omega

theorem getDictEntries_size :
    (kt : Char) → (vt : Sig) → (es : List (PyVal × PyVal)) → (ws : List (GVar × GVar)) →
      getDictEntries kt vt es = some ws → GVar.sizeEntries ws ≤ PyVal.sizeEntries es
  | _, _, [], ws => by
      intro h
      simp [getDictEntries] at h
      subst h
      simp [GVar.sizeEntries, PyVal.sizeEntries]
  | kt, vt, (k, v) :: es, ws => by
      intro h
      revert h
      simp only [getDictEntries]
      cases hk : mkBasic kt k with
      | none => intro h; simp at h
      | some wk =>
          cases hv : get_variant vt v with
          | none => intro h; simp at h
          | some wv =>
              cases hrest : getDictEntries kt vt es with
              | none => intro h; simp at h
              | some rest =>
                  intro h
                  simp at h
                  subst h
                  have h1 := mkBasic_size hk
                  have h2 := get_variant_size vt v wv hv
                  have h3 := getDictEntries_size kt vt es rest hrest
                  simp [GVar.sizeEntries, PyVal.sizeEntries]
                  omega

end

/-! ### Handle transposition, encode direction

`variant_replace_handles_with_fdlist_indices` and its helpers from
src/dasbus/typing.py.  The Python code mutates `fdlist` in place; here the
list is threaded explicitly.  `none` models an uncaught Python exception
(a `TypeError` from a `Variant` constructor, or applying `list(...)` to a
bare top-level variant of type `v`, which the source does not support). -/

/-- The key handling of one dictionary entry: if the key type is the handle
code, append the raw key to the fd list and substitute its index, otherwise
keep the key. -/
def dict_key_replace_handles (kt : Char) (key : PyVal) (fdlist : List Int) :
    Option (PyVal × List Int) :=
  if kt = 'h' then
    match key with
    | .int n => some (.int (fdlist.length : Int), fdlist ++ [n])
    | _ => none
  else some (key, fdlist)

mutual

/-- `dasbus.typing.variant_replace_handles_with_fdlist_indices`: given a
variant, return a new variant with all `h` handles replaced with fd-list
indices, appending the extracted handles to the fd list.  Dispatch follows
the source: a basic variant is replaced if it is a handle and returned
unchanged otherwise; a `a{`-prefixed type goes to the dictionary helper; any
other `a`-prefixed type goes through the array helper on the unwrapped
value; otherwise the signature is split and the unwrapped children are
processed position by position.  (A bare top-level variant of type `v`
falls into that last path in the source, where `list(...)` applied to the
boxed variant raises; modelled as `none`.) -/
def variant_replace_handles_with_fdlist_indices (v : GVar) (fdlist : List Int) :
    Option (GVar × List Int) :=
  match v with
  | .int c n =>
      if c = 'h' then some (.int 'h' (fdlist.length : Int), fdlist ++ [n])
      else some (.int c n, fdlist)
  | .str c s => some (.str c s, fdlist)
  | .dict kt vt es => dictionary_replace_handles_with_fdlist_indices (.dict kt vt es) fdlist
  | .arr elem items =>
      match array_replace_handles_with_fdlist_indices
          (unwrap_variant (.arr elem items)) (.arr elem) fdlist with
      | some (a, fdl) =>
          match get_variant (.arr elem) a with
          | some nv => some (nv, fdl)
          | none => none
      | none => none
  | .tup items =>
      match tuple_items_replace_handles (GVar.sigList items) (unwrapList items) fdlist with
      | some (us2, fdl) =>
          match get_variant (.tup (GVar.sigList items)) (.tup us2) with
          | some nv => some (nv, fdl)
          | none => none
      | none => none
  | .box _ => none
termination_by 4 * v.size + 2
decreasing_by
  · simp [GVar.size]
  · have h1 := unwrap_variant_size (GVar.arr elem items)
    simp at h1 ⊢
    omega
  · have h1 := unwrapList_size items
    simp [GVar.size] at h1 ⊢
    omega

/-- `dasbus.typing.dictionary_replace_handles_with_fdlist_indices`: iterate
the unwrapped dictionary, transposing handle-typed keys and values and
recursing into the rest, and rebuild a variant of the same type from the
new dictionary. -/
def dictionary_replace_handles_with_fdlist_indices (v : GVar) (fdlist : List Int) :
    Option (GVar × List Int) :=
  match v with
  | .dict kt vt es =>
      match dict_items_replace_handles kt vt (dictOfList (unwrapEntries es)) [] fdlist with
      | some (newdict, fdl) =>
          match get_variant (.dict kt vt) (.dict newdict) with
          | some nv => some (nv, fdl)
          | none => none
      | none => none
  | _ => none
termination_by 4 * v.size
decreasing_by
  · have h1 := dictOfList_size (unwrapEntries es)
    have h2 := unwrapEntries_size es
    simp [GVar.size] at h1 h2 ⊢
    omega

/-- The `for key, value in e.items()` loop of the dictionary helper,
accumulating `newdict` by Python dictionary insertion.  The value is
substituted if the value type is the handle code, recursed into directly if
it is `v`, and otherwise re-wrapped, recursed into and unwrapped again (the
`_is_basic_type` test of the source is applied to a type string and a type
string is never a key of `_basic_type_mapping`, so that test is always
false and every remaining value is recursed into). -/
def dict_items_replace_handles (kt : Char) (vt : Sig) (entries : List (PyVal × PyVal))
    (newdict : List (PyVal × PyVal)) (fdlist : List Int) :
    Option (List (PyVal × PyVal) × List Int) :=
  match entries with
  | [] => some (newdict, fdlist)
  | (key, value) :: rest =>
      match dict_key_replace_handles kt key fdlist with
      | none => none
      | some (key2, fdl1) =>
          match dict_value_replace_handles vt value fdl1 with
          | none => none
          | some (value2, fdl2) =>
              dict_items_replace_handles kt vt rest
                (dictInsert newdict key2 value2) fdl2
termination_by 4 * PyVal.sizeEntries entries + 3
decreasing_by
  all_goals
    first
      | (simp_all [GVar.size, PyVal.size, PyVal.sizeList, PyVal.sizeEntries,
           GVar.sizeList, GVar.sizeEntries]
         omega)
      | omega

/-- The value handling of one dictionary entry: a handle-typed value is
appended to the fd list and replaced by its index, a `v`-typed value is a
held variant object and is recursed into directly, and every other value
is re-wrapped, recursed into and unwrapped again. -/
def dict_value_replace_handles (vt : Sig) (value : PyVal) (fdlist : List Int) :
    Option (PyVal × List Int) :=
  if vt = Sig.basic 'h' then
    match value with
    | .int n => some (.int (fdlist.length : Int), fdlist ++ [n])
    | _ => none
  else if vt = Sig.var then
    match value with
    | .vart inner =>
        match variant_replace_handles_with_fdlist_indices inner fdlist with
        | some (nv, fdl2) => some (.vart nv, fdl2)
        | none => none
    | _ => none
  else
    match hgv : get_variant vt value with
    | some nv =>
        match variant_replace_handles_with_fdlist_indices nv fdlist with
        | some (nnv, fdl2) => some (unwrap_variant nnv, fdl2)
        | none => none
    | none => none
termination_by 4 * value.size + 4
decreasing_by
  all_goals
    first
      | (have hg := get_variant_size _ _ _ (by assumption)
         simp_all [GVar.size, PyVal.size, PyVal.sizeList, PyVal.sizeEntries,
           GVar.sizeList, GVar.sizeEntries]
         omega)
      | (simp_all [GVar.size, PyVal.size, PyVal.sizeList, PyVal.sizeEntries,
           GVar.sizeList, GVar.sizeEntries]
         omega)
      | simp_all [GVar.size, PyVal.size, PyVal.sizeList, PyVal.sizeEntries,
           GVar.sizeList, GVar.sizeEntries]
      | omega

/-- `dasbus.typing.array_replace_handles_with_fdlist_indices`: `e` is the
unwrapped value and `s` the `a`-prefixed signature it belongs to.  If the
signature is a dictionary (`typestring[1] == '{'`), re-wrap, recurse and
unwrap; otherwise process the elements of the list. -/
def array_replace_handles_with_fdlist_indices (e : PyVal) (s : Sig) (fdlist : List Int) :
    Option (PyVal × List Int) :=
  match s with
  | .dict kt vt =>
      match hgv : get_variant (.dict kt vt) e with
      | some nv =>
          match variant_replace_handles_with_fdlist_indices nv fdlist with
          | some (nnv, fdl) => some (unwrap_variant nnv, fdl)
          | none => none
      | none => none
  | .arr elem =>
      match e with
      | .list items =>
          match array_items_replace_handles elem items fdlist with
          | some (items2, fdl) => some (.list items2, fdl)
          | none => none
      | _ => none
  | _ => none
termination_by 4 * e.size + (match s with | .dict _ _ => 3 | _ => 0)
decreasing_by
  all_goals
    first
      | (have hg := get_variant_size _ _ _ (by assumption)
         simp_all [GVar.size, PyVal.size, PyVal.sizeList, PyVal.sizeEntries,
           GVar.sizeList, GVar.sizeEntries]
         omega)
      | (simp_all [GVar.size, PyVal.size, PyVal.sizeList, PyVal.sizeEntries,
           GVar.sizeList, GVar.sizeEntries]
         omega)
      | simp_all [GVar.size, PyVal.size, PyVal.sizeList, PyVal.sizeEntries,
           GVar.sizeList, GVar.sizeEntries]
      | omega

/-- The element loop of the array helper: an element of type `v` is a held
variant object and is recursed into directly; any other element is
re-wrapped with the element signature, recursed into and unwrapped. -/
def array_items_replace_handles (elem : Sig) (items : List PyVal) (fdlist : List Int) :
    Option (List PyVal × List Int) :=
  match items with
  | [] => some ([], fdlist)
  | f :: rest =>
      if elem = Sig.var then
        match f with
        | .vart inner =>
            match variant_replace_handles_with_fdlist_indices inner fdlist with
            | some (nv, fdl) =>
                match array_items_replace_handles elem rest fdl with
                | some (rest2, fdl2) => some (.vart nv :: rest2, fdl2)
                | none => none
            | none => none
        | _ => none
      else
        match hgv : get_variant elem f with
        | some nv =>
            match variant_replace_handles_with_fdlist_indices nv fdlist with
            | some (nnv, fdl) =>
                match array_items_replace_handles elem rest fdl with
                | some (rest2, fdl2) => some (unwrap_variant nnv :: rest2, fdl2)
                | none => none
            | none => none
        | none => none
termination_by 4 * PyVal.sizeList items + 3
decreasing_by
  all_goals
    first
      | (have hg := get_variant_size _ _ _ (by assumption)
         simp_all [GVar.size, PyVal.size, PyVal.sizeList, PyVal.sizeEntries,
           GVar.sizeList, GVar.sizeEntries]
         omega)
      | (simp_all [GVar.size, PyVal.size, PyVal.sizeList, PyVal.sizeEntries,
           GVar.sizeList, GVar.sizeEntries]
         omega)
      | simp_all [GVar.size, PyVal.size, PyVal.sizeList, PyVal.sizeEntries,
           GVar.sizeList, GVar.sizeEntries]
      | omega

/-- One element of the tuple loop of the variant helper, dispatching on the
element signature `typelist[i]`: a handle is substituted; an `a`-prefixed
signature goes through the array helper; a `v` element is a held variant
object and is recursed into directly; everything else is re-wrapped,
recursed into and unwrapped. -/
def tuple_item_replace_handles (s : Sig) (e : PyVal) (fdlist : List Int) :
    Option (PyVal × List Int) :=
  if s = Sig.basic 'h' then
    match e with
    | .int n => some (.int (fdlist.length : Int), fdlist ++ [n])
    | _ => none
  else
    match s with
    | .arr elem => array_replace_handles_with_fdlist_indices e (.arr elem) fdlist
    | .dict kt vt => array_replace_handles_with_fdlist_indices e (.dict kt vt) fdlist
    | .var =>
        match e with
        | .vart inner =>
            match variant_replace_handles_with_fdlist_indices inner fdlist with
            | some (nv, fdl) => some (.vart nv, fdl)
            | none => none
        | _ => none
    | _ =>
        match hgv : get_variant s e with
        | some nv =>
            match variant_replace_handles_with_fdlist_indices nv fdlist with
            | some (nnv, fdl) => some (unwrap_variant nnv, fdl)
            | none => none
        | none => none
termination_by 4 * e.size + 4
decreasing_by
  all_goals
    first
      | (have hg := get_variant_size _ _ _ (by assumption)
         simp_all [GVar.size, PyVal.size, PyVal.sizeList, PyVal.sizeEntries,
           GVar.sizeList, GVar.sizeEntries]
         omega)
      | (simp_all [GVar.size, PyVal.size, PyVal.sizeList, PyVal.sizeEntries,
           GVar.sizeList, GVar.sizeEntries]
         omega)
      | simp_all [GVar.size, PyVal.size, PyVal.sizeList, PyVal.sizeEntries,
           GVar.sizeList, GVar.sizeEntries]
      | omega

/-- The tuple loop of the variant helper, processing the unwrapped children
against the split signature position by position. -/
def tuple_items_replace_handles (ss : List Sig) (us : List PyVal) (fdlist : List Int) :
    Option (List PyVal × List Int) :=
  match ss, us with
  | [], [] => some ([], fdlist)
  | s :: ss, e :: us =>
      match tuple_item_replace_handles s e fdlist with
      | some (e2, fdl) =>
          match tuple_items_replace_handles ss us fdl with
          | some (rest2, fdl2) => some (e2 :: rest2, fdl2)
          | none => none
      | none => none
  | _, _ => none
termination_by 4 * PyVal.sizeList us + 5
decreasing_by
  all_goals
    first
      | (have hg := get_variant_size _ _ _ (by assumption)
         simp_all [GVar.size, PyVal.size, PyVal.sizeList, PyVal.sizeEntries,
           GVar.sizeList, GVar.sizeEntries]
         omega)
      | (simp_all [GVar.size, PyVal.size, PyVal.sizeList, PyVal.sizeEntries,
           GVar.sizeList, GVar.sizeEntries]
         omega)
      | simp_all [GVar.size, PyVal.size, PyVal.sizeList, PyVal.sizeEntries,
           GVar.sizeList, GVar.sizeEntries]
      | omega

end

/-! ### Handle transposition, decode direction

`variant_replace_fdlist_indices_with_handles` and its helpers from
src/dasbus/typing.py (the same function in src/dasbus/unix.py delegates the
leaf lookup to `indices[fd_index]` with identical behaviour).  `none`
models an uncaught Python exception: in particular the `IndexError` raised
by `fdlist[idx]` when the stored index is out of range. -/

/-- The key handling of one dictionary entry in the decode direction:
`key = fdlist[key]` when the key type is the handle code. -/
def dict_key_replace_indices (kt : Char) (key : PyVal) (fdlist : List Int) : Option PyVal :=
  if kt = 'h' then
    match key with
    | .int idx =>
        match pyIndex fdlist idx with
        | some fd => some (.int fd)
        | none => none
    | _ => none
  else some key

mutual

/-- `dasbus.typing.variant_replace_fdlist_indices_with_handles`: given a
variant and an fd list, find any `h` handle instances and replace the
stored indices with the file descriptors they represent.  The dispatch
mirrors the encode direction; a handle leaf is looked up with
`fdlist[idx]`, whose `IndexError` on an out-of-range index propagates
(`none`). -/
def variant_replace_fdlist_indices_with_handles (v : GVar) (fdlist : List Int) : Option GVar :=
  match v with
  | .int c n =>
      if c = 'h' then
        match pyIndex fdlist n with
        | some fd => some (.int 'h' fd)
        | none => none
      else some (.int c n)
  | .str c s => some (.str c s)
  | .dict kt vt es => dictionary_replace_fdlist_indices_with_handles (.dict kt vt es) fdlist
  | .arr elem items =>
      match array_replace_fdlist_indices_with_handles
          (unwrap_variant (.arr elem items)) (.arr elem) fdlist with
      | some a =>
          match get_variant (.arr elem) a with
          | some nv => some nv
          | none => none
      | none => none
  | .tup items =>
      match tuple_items_replace_indices (GVar.sigList items) (unwrapList items) fdlist with
      | some us2 =>
          match get_variant (.tup (GVar.sigList items)) (.tup us2) with
          | some nv => some nv
          | none => none
      | none => none
  | .box _ => none
termination_by 4 * v.size + 2
decreasing_by
  · simp [GVar.size]
  · have h1 := unwrap_variant_size (GVar.arr elem items)
    simp at h1 ⊢
    omega
  · have h1 := unwrapList_size items
    simp [GVar.size] at h1 ⊢
    omega

/-- `dasbus.typing.dictionary_replace_fdlist_indices_with_handles`: iterate
the unwrapped dictionary, restoring handle-typed keys and values and
recursing into the rest, and rebuild a variant of the same type. -/
def dictionary_replace_fdlist_indices_with_handles (v : GVar) (fdlist : List Int) :
    Option GVar :=
  match v with
  | .dict kt vt es =>
      match dict_items_replace_indices kt vt (dictOfList (unwrapEntries es)) [] fdlist with
      | some newdict =>
          match get_variant (.dict kt vt) (.dict newdict) with
          | some nv => some nv
          | none => none
      | none => none
  | _ => none
termination_by 4 * v.size
decreasing_by
  · have h1 := dictOfList_size (unwrapEntries es)
    have h2 := unwrapEntries_size es
    simp [GVar.size] at h1 h2 ⊢
    omega

/-- The entry loop of the decode-direction dictionary helper (the
`_is_basic_type` test is always false on a type string, as in the encode
direction, so every non-handle non-`v` value is recursed into). -/
def dict_items_replace_indices (kt : Char) (vt : Sig) (entries : List (PyVal × PyVal))
    (newdict : List (PyVal × PyVal)) (fdlist : List Int) :
    Option (List (PyVal × PyVal)) :=
  match entries with
  | [] => some newdict
  | (key, value) :: rest =>
      match dict_key_replace_indices kt key fdlist with
      | none => none
      | some key2 =>
          match dict_value_replace_indices vt value fdlist with
          | none => none
          | some value2 =>
              dict_items_replace_indices kt vt rest
                (dictInsert newdict key2 value2) fdlist
termination_by 4 * PyVal.sizeEntries entries + 3
decreasing_by
  all_goals
    first
      | (simp_all [GVar.size, PyVal.size, PyVal.sizeList, PyVal.sizeEntries,
           GVar.sizeList, GVar.sizeEntries]
         omega)
      | omega

/-- The value handling of one dictionary entry in the decode direction:
`value = fdlist[value]` for a handle-typed value, direct recursion into a
held variant object for a `v`-typed value, and re-wrap, recurse, unwrap
otherwise. -/
def dict_value_replace_indices (vt : Sig) (value : PyVal) (fdlist : List Int) :
    Option PyVal :=
  if vt = Sig.basic 'h' then
    match value with
    | .int idx =>
        match pyIndex fdlist idx with
        | some fd => some (.int fd)
        | none => none
    | _ => none
  else if vt = Sig.var then
    match value with
    | .vart inner =>
        match variant_replace_fdlist_indices_with_handles inner fdlist with
        | some nv => some (.vart nv)
        | none => none
    | _ => none
  else
    match hgv : get_variant vt value with
    | some nv =>
        match variant_replace_fdlist_indices_with_handles nv fdlist with
        | some nnv => some (unwrap_variant nnv)
        | none => none
    | none => none
termination_by 4 * value.size + 4
decreasing_by
  all_goals
    first
      | (have hg := get_variant_size _ _ _ (by assumption)
         simp_all [GVar.size, PyVal.size, PyVal.sizeList, PyVal.sizeEntries,
           GVar.sizeList, GVar.sizeEntries]
         omega)
      | (simp_all [GVar.size, PyVal.size, PyVal.sizeList, PyVal.sizeEntries,
           GVar.sizeList, GVar.sizeEntries]
         omega)
      | simp_all [GVar.size, PyVal.size, PyVal.sizeList, PyVal.sizeEntries,
           GVar.sizeList, GVar.sizeEntries]
      | omega

/-- `dasbus.typing.array_replace_fdlist_indices_with_handles`. -/
def array_replace_fdlist_indices_with_handles (e : PyVal) (s : Sig) (fdlist : List Int) :
    Option PyVal :=
  match s with
  | .dict kt vt =>
      match hgv : get_variant (.dict kt vt) e with
      | some nv =>
          match variant_replace_fdlist_indices_with_handles nv fdlist with
          | some nnv => some (unwrap_variant nnv)
          | none => none
      | none => none
  | .arr elem =>
      match e with
      | .list items =>
          match array_items_replace_indices elem items fdlist with
          | some items2 => some (.list items2)
          | none => none
      | _ => none
  | _ => none
termination_by 4 * e.size + (match s with | .dict _ _ => 3 | _ => 0)
decreasing_by
  all_goals
    first
      | (have hg := get_variant_size _ _ _ (by assumption)
         simp_all [GVar.size, PyVal.size, PyVal.sizeList, PyVal.sizeEntries,
           GVar.sizeList, GVar.sizeEntries]
         omega)
      | (simp_all [GVar.size, PyVal.size, PyVal.sizeList, PyVal.sizeEntries,
           GVar.sizeList, GVar.sizeEntries]
         omega)
      | simp_all [GVar.size, PyVal.size, PyVal.sizeList, PyVal.sizeEntries,
           GVar.sizeList, GVar.sizeEntries]
      | omega

/-- The element loop of the decode-direction array helper. -/
def array_items_replace_indices (elem : Sig) (items : List PyVal) (fdlist : List Int) :
    Option (List PyVal) :=
  match items with
  | [] => some []
  | f :: rest =>
      if elem = Sig.var then
        match f with
        | .vart inner =>
            match variant_replace_fdlist_indices_with_handles inner fdlist with
            | some nv =>
                match array_items_replace_indices elem rest fdlist with
                | some rest2 => some (.vart nv :: rest2)
                | none => none
            | none => none
        | _ => none
      else
        match hgv : get_variant elem f with
        | some nv =>
            match variant_replace_fdlist_indices_with_handles nv fdlist with
            | some nnv =>
                match array_items_replace_indices elem rest fdlist with
                | some rest2 => some (unwrap_variant nnv :: rest2)
                | none => none
            | none => none
        | none => none
termination_by 4 * PyVal.sizeList items + 3
decreasing_by
  all_goals
    first
      | (have hg := get_variant_size _ _ _ (by assumption)
         simp_all [GVar.size, PyVal.size, PyVal.sizeList, PyVal.sizeEntries,
           GVar.sizeList, GVar.sizeEntries]
         omega)
      | (simp_all [GVar.size, PyVal.size, PyVal.sizeList, PyVal.sizeEntries,
           GVar.sizeList, GVar.sizeEntries]
         omega)
      | simp_all [GVar.size, PyVal.size, PyVal.sizeList, PyVal.sizeEntries,
           GVar.sizeList, GVar.sizeEntries]
      | omega

/-- The handle leaf of the decode direction: `fdlist[idx]` on the stored
index, whose `IndexError` propagates as `none`. -/
def handle_leaf_restore (fdlist : List Int) (e : PyVal) : Option PyVal :=
  match e with
  | .int idx =>
      match pyIndex fdlist idx with
      | some fd => some (.int fd)
      | none => none
  | _ => none

/-- One element of the decode-direction tuple loop: a stored handle index is
looked up with `fdlist[idx]`; the other cases mirror encode. -/
def tuple_item_replace_indices (s : Sig) (e : PyVal) (fdlist : List Int) : Option PyVal :=
  if s = Sig.basic 'h' then
    handle_leaf_restore fdlist e
  else
    match s with
    | .arr elem => array_replace_fdlist_indices_with_handles e (.arr elem) fdlist
    | .dict kt vt => array_replace_fdlist_indices_with_handles e (.dict kt vt) fdlist
    | .var =>
        match e with
        | .vart inner =>
            match variant_replace_fdlist_indices_with_handles inner fdlist with
            | some nv => some (.vart nv)
            | none => none
        | _ => none
    | _ =>
        match hgv : get_variant s e with
        | some nv =>
            match variant_replace_fdlist_indices_with_handles nv fdlist with
            | some nnv => some (unwrap_variant nnv)
            | none => none
        | none => none
termination_by 4 * e.size + 4
decreasing_by
  all_goals
    first
      | (have hg := get_variant_size _ _ _ (by assumption)
         simp_all [GVar.size, PyVal.size, PyVal.sizeList, PyVal.sizeEntries,
           GVar.sizeList, GVar.sizeEntries]
         omega)
      | (simp_all [GVar.size, PyVal.size, PyVal.sizeList, PyVal.sizeEntries,
           GVar.sizeList, GVar.sizeEntries]
         omega)
      | simp_all [GVar.size, PyVal.size, PyVal.sizeList, PyVal.sizeEntries,
           GVar.sizeList, GVar.sizeEntries]
      | omega

/-- The tuple loop of the decode-direction variant helper. -/
def tuple_items_replace_indices (ss : List Sig) (us : List PyVal) (fdlist : List Int) :
    Option (List PyVal) :=
  match ss, us with
  | [], [] => some []
  | s :: ss, e :: us =>
      match tuple_item_replace_indices s e fdlist with
      | some e2 =>
          match tuple_items_replace_indices ss us fdlist with
          | some rest2 => some (e2 :: rest2)
          | none => none
      | none => none
  | _, _ => none
termination_by 4 * PyVal.sizeList us + 5
decreasing_by
  all_goals
    first
      | (simp_all [GVar.size, PyVal.size, PyVal.sizeList, PyVal.sizeEntries,
           GVar.sizeList, GVar.sizeEntries]
         omega)
      | omega

end

/-- The spec's encode operation `acquire_handles`:
`variant_replace_handles_with_fdlist_indices` started with the default empty
fd list. -/
def acquire_handles (v : GVar) : Option (GVar × List Int) :=
  variant_replace_handles_with_fdlist_indices v []

/-- The spec's decode operation `restore_handles`. -/
def restore_handles (v : GVar) (fdlist : List Int) : Option GVar :=
  variant_replace_fdlist_indices_with_handles v fdlist

/-- The round trip of the spec:
`restore_handles(acquire_handles(v)[0], acquire_handles(v)[1]) == v`. -/
def handle_round_trip (v : GVar) : Prop :=
  (acquire_handles v).bind (fun p => restore_handles p.1 p.2) = some v

theorem unwrapList_eq_map (l : List GVar) : unwrapList l = l.map unwrap_variant := by
  induction l with
  | nil => simp [unwrapList]
  | cons v vs ih => simp [unwrapList, ih]

theorem unwrapEntries_eq_map (l : List (GVar × GVar)) :
    unwrapEntries l = l.map (fun e => (e.1.unpack, unwrap_variant e.2)) := by
  induction l with
  | nil => simp [unwrapEntries]
  | cons e es ih => simp [unwrapEntries, ih]

/-! ### Well-formed variants

`GVar` overapproximates GLib variants: a genuine variant is well typed (every
array element matches the element signature, every dictionary entry matches
the key code and value signature, basic payloads match their codes) and its
dictionaries, being built from Python dicts, have pairwise distinct keys.
`wf` captures exactly that; `uwf s e` says that `e` is the shallow unwrap of
some well-formed variant of signature `s`. -/

/-- Does the unpacked key occur among the unpacked keys of the entries? -/
def keyMem (k : PyVal) : List (GVar × GVar) → Bool
  | [] => false
  | (k0, _) :: es => pyEqBasic k0.unpack k || keyMem k es

mutual

/-- Well-formedness of a variant tree (see the section comment). -/
def GVar.wf : GVar → Bool
  | .int c _ => numericCodes.contains c
  | .str c _ => stringCodes.contains c
  | .box v => v.wf
  | .tup items => GVar.wfList items
  | .arr elem items => GVar.wfArr elem items
  | .dict kt vt es => GVar.wfDict kt vt es

/-- Well-formedness of tuple children. -/
def GVar.wfList : List GVar → Bool
  | [] => true
  | v :: vs => v.wf && GVar.wfList vs

/-- Well-formedness of array elements against the element signature. -/
def GVar.wfArr (elem : Sig) : List GVar → Bool
  | [] => true
  | v :: vs => Sig.beq v.sig elem && v.wf && GVar.wfArr elem vs

/-- Well-formedness of dictionary entries: typed keys and values, and keys
pairwise distinct. -/
def GVar.wfDict (kt : Char) (vt : Sig) : List (GVar × GVar) → Bool
  | [] => true
  | (k, w) :: es =>
      Sig.beq k.sig (.basic kt) && k.wf && Sig.beq w.sig vt && w.wf &&
        !(keyMem k.unpack es) && GVar.wfDict kt vt es

end

/-- Does the key occur among the keys of the native entry list? -/
def ukeyMem (k : PyVal) : List (PyVal × PyVal) → Bool
  | [] => false
  | (k0, _) :: es => pyEqBasic k0 k || ukeyMem k es

/-- Pairwise distinctness of the keys of a native entry list. -/
def entriesDistinct : List (PyVal × PyVal) → Bool
  | [] => true
  | (k, _) :: es => !(ukeyMem k es) && entriesDistinct es

mutual

/-- `uwf s e`: `e` is the shallow unwrap of a well-formed variant of
signature `s` (see the section comment). -/
def uwf : Sig → PyVal → Bool
  | .basic c, .int _ => numericCodes.contains c
  | .basic c, .str _ => stringCodes.contains c
  | .var, .vart w => w.wf
  | .tup ss, .tup vs => uwfList ss vs
  | .arr elem, .list vs => uwfArr elem vs
  | .dict kt vt, .dict es => uwfDict kt vt es
  | _, _ => false

/-- `uwf` over tuple components. -/
def uwfList : List Sig → List PyVal → Bool
  | [], [] => true
  | s :: ss, v :: vs => uwf s v && uwfList ss vs
  | _, _ => false

/-- `uwf` over array elements. -/
def uwfArr (elem : Sig) : List PyVal → Bool
  | [] => true
  | v :: vs => uwf elem v && uwfArr elem vs

/-- `uwf` over dictionary entries, including key distinctness. -/
def uwfDict (kt : Char) (vt : Sig) : List (PyVal × PyVal) → Bool
  | [] => true
  | (k, v) :: es => uwf (.basic kt) k && uwf vt v && !(ukeyMem k es) && uwfDict kt vt es

end

/-! ### Handle-freedom and out-of-range predicates -/

mutual

/-- The variant contains no handle-typed (`h`) leaf anywhere in its value
tree (boxed variants included). -/
def GVar.noH : GVar → Bool
  | .int c _ => !(c == 'h')
  | .str _ _ => true
  | .box v => v.noH
  | .tup items => GVar.noHList items
  | .arr _ items => GVar.noHList items
  | .dict _ _ es => GVar.noHEntries es

/-- `noH` over children. -/
def GVar.noHList : List GVar → Bool
  | [] => true
  | v :: vs => v.noH && GVar.noHList vs

/-- `noH` over dictionary entries (keys are leaves too). -/
def GVar.noHEntries : List (GVar × GVar) → Bool
  | [] => true
  | (k, w) :: es => k.noH && w.noH && GVar.noHEntries es

end

mutual

/-- `noH` at the level of an unwrapped value directed by its signature. -/
def noHU : Sig → PyVal → Bool
  | .basic c, _ => !(c == 'h')
  | .var, .vart w => w.noH
  | .tup ss, .tup vs => noHUList ss vs
  | .arr elem, .list vs => noHUArr elem vs
  | .dict kt vt, .dict es => noHUDict kt vt es
  | _, _ => true

/-- `noHU` over tuple components. -/
def noHUList : List Sig → List PyVal → Bool
  | s :: ss, v :: vs => noHU s v && noHUList ss vs
  | _, _ => true

/-- `noHU` over array elements. -/
def noHUArr (elem : Sig) : List PyVal → Bool
  | [] => true
  | v :: vs => noHU elem v && noHUArr elem vs

/-- `noHU` over dictionary entries: the key leaf is handle-typed exactly
when the key code is `h`. -/
def noHUDict (kt : Char) (vt : Sig) : List (PyVal × PyVal) → Bool
  | [] => true
  | (_, v) :: es => !(kt == 'h') && noHU vt v && noHUDict kt vt es

end

mutual

/-- No variant value in the tree directly boxes another variant (GLib
permits `v` inside `v`, but the source's tuple path applies `list(...)` to
the inner variant object and raises on it, so such values are outside the
domain the transposition functions support). -/
def GVar.noVV : GVar → Bool
  | .int _ _ => true
  | .str _ _ => true
  | .box v => !(Sig.beq v.sig Sig.var) && v.noVV
  | .tup items => GVar.noVVList items
  | .arr _ items => GVar.noVVList items
  | .dict _ _ es => GVar.noVVEntries es

/-- `noVV` over children. -/
def GVar.noVVList : List GVar → Bool
  | [] => true
  | v :: vs => v.noVV && GVar.noVVList vs

/-- `noVV` over dictionary entries. -/
def GVar.noVVEntries : List (GVar × GVar) → Bool
  | [] => true
  | (k, w) :: es => k.noVV && w.noVV && GVar.noVVEntries es

end

mutual

/-- `noVV` at the level of an unwrapped value directed by its signature. -/
def noVVU : Sig → PyVal → Bool
  | .var, .vart w => !(Sig.beq w.sig Sig.var) && w.noVV
  | .tup ss, .tup vs => noVVUList ss vs
  | .arr elem, .list vs => noVVUArr elem vs
  | .dict kt vt, .dict es => noVVUDict kt vt es
  | _, _ => true

/-- `noVVU` over tuple components. -/
def noVVUList : List Sig → List PyVal → Bool
  | s :: ss, v :: vs => noVVU s v && noVVUList ss vs
  | _, _ => true

/-- `noVVU` over array elements. -/
def noVVUArr (elem : Sig) : List PyVal → Bool
  | [] => true
  | v :: vs => noVVU elem v && noVVUArr elem vs

/-- `noVVU` over dictionary entries. -/
def noVVUDict (kt : Char) (vt : Sig) : List (PyVal × PyVal) → Bool
  | [] => true
  | (_, v) :: es => noVVU vt v && noVVUDict kt vt es

end

mutual

/-- The variant contains a handle-typed leaf whose stored index is out of
range for the fd list (Python `fdlist[idx]` would raise `IndexError`). -/
def GVar.hasOOR (fdlist : List Int) : GVar → Bool
  | .int c n => c == 'h' && (pyIndex fdlist n).isNone
  | .str _ _ => false
  | .box v => GVar.hasOOR fdlist v
  | .tup items => GVar.hasOORList fdlist items
  | .arr _ items => GVar.hasOORList fdlist items
  | .dict _ _ es => GVar.hasOOREntries fdlist es

/-- `hasOOR` over children. -/
def GVar.hasOORList (fdlist : List Int) : List GVar → Bool
  | [] => false
  | v :: vs => GVar.hasOOR fdlist v || GVar.hasOORList fdlist vs

/-- `hasOOR` over dictionary entries (keys included). -/
def GVar.hasOOREntries (fdlist : List Int) : List (GVar × GVar) → Bool
  | [] => false
  | (k, w) :: es =>
      GVar.hasOOR fdlist k || GVar.hasOOR fdlist w || GVar.hasOOREntries fdlist es

end

mutual

/-- `hasOOR` at the level of an unwrapped value directed by its signature. -/
def hasOORU (fdlist : List Int) : Sig → PyVal → Bool
  | .basic c, .int n => c == 'h' && (pyIndex fdlist n).isNone
  | .var, .vart w => GVar.hasOOR fdlist w
  | .tup ss, .tup vs => hasOORUList fdlist ss vs
  | .arr elem, .list vs => hasOORUArr fdlist elem vs
  | .dict kt vt, .dict es => hasOORUDict fdlist kt vt es
  | _, _ => false

/-- `hasOORU` over tuple components. -/
def hasOORUList (fdlist : List Int) : List Sig → List PyVal → Bool
  | s :: ss, v :: vs => hasOORU fdlist s v || hasOORUList fdlist ss vs
  | _, _ => false

/-- `hasOORU` over array elements. -/
def hasOORUArr (fdlist : List Int) (elem : Sig) : List PyVal → Bool
  | [] => false
  | v :: vs => hasOORU fdlist elem v || hasOORUArr fdlist elem vs

/-- `hasOORU` over dictionary entries: a handle-typed key with an
out-of-range index counts. -/
def hasOORUDict (fdlist : List Int) (kt : Char) (vt : Sig) : List (PyVal × PyVal) → Bool
  | [] => false
  | (k, v) :: es =>
      hasOORU fdlist (.basic kt) k || hasOORU fdlist vt v ||
        hasOORUDict fdlist kt vt es

end

/-! ### Dictionary rebuild lemmas -/

theorem pyEqBasic_comm (a b : PyVal) : pyEqBasic a b = pyEqBasic b a := by
  cases a <;> cases b <;> simp [pyEqBasic] <;> exact eq_comm

theorem ukeyMem_eq_false_iff (k : PyVal) (es : List (PyVal × PyVal)) :
    ukeyMem k es = false ↔ ∀ e ∈ es, pyEqBasic e.1 k = false := by
  induction es with
  | nil => simp [ukeyMem]
  | cons e es ih => cases e with | mk k0 v0 => simp [ukeyMem, ih]

theorem ukeyMem_append (k : PyVal) (a b : List (PyVal × PyVal)) :
    ukeyMem k (a ++ b) = (ukeyMem k a || ukeyMem k b) := by
  induction a with
  | nil => simp [ukeyMem]
  | cons e es ih => cases e with | mk k0 v0 => simp [ukeyMem, ih, Bool.or_assoc]

theorem dictInsert_not_mem (k v : PyVal) (es : List (PyVal × PyVal))
    (h : ukeyMem k es = false) : dictInsert es k v = es ++ [(k, v)] := by
  induction es with
  | nil => simp [dictInsert]
  | cons e es ih =>
      cases e with
      | mk k0 v0 =>
          simp [ukeyMem] at h
          simp [dictInsert, h.1, ih h.2]

theorem dictOfList_distinct_aux (l : List (PyVal × PyVal)) :
    ∀ acc, entriesDistinct l = true → (∀ e ∈ l, ukeyMem e.1 acc = false) →
      l.foldl (fun acc e => dictInsert acc e.1 e.2) acc = acc ++ l := by
  induction l with
  | nil => intro acc _ _; simp
  | cons e l ih =>
      intro acc hdist hdisj
      cases e with
      | mk k v =>
          simp [entriesDistinct] at hdist
          have hins : dictInsert acc k v = acc ++ [(k, v)] :=
            dictInsert_not_mem k v acc (hdisj (k, v) (by simp))
          have hdisj2 : ∀ e ∈ l, ukeyMem e.1 (acc ++ [(k, v)]) = false := by
            intro e he
            have h1 : ukeyMem e.1 acc = false := hdisj e (by simp [he])
            have h2 : pyEqBasic e.1 k = false :=
              (ukeyMem_eq_false_iff k l).mp hdist.1 e he
            have h3 : pyEqBasic k e.1 = false := by rw [pyEqBasic_comm]; exact h2
            simp [ukeyMem_append, h1, ukeyMem, h3]
          calc (List.foldl (fun acc e => dictInsert acc e.1 e.2) acc ((k, v) :: l))
              = List.foldl (fun acc e => dictInsert acc e.1 e.2) (acc ++ [(k, v)]) l := by
                simp [List.foldl, hins]
            _ = (acc ++ [(k, v)]) ++ l := ih (acc ++ [(k, v)]) hdist.2 hdisj2
            _ = acc ++ ((k, v) :: l) := by simp

/-- Building a Python dict from entries with pairwise distinct keys keeps
the entries unchanged. -/
theorem dictOfList_distinct (l : List (PyVal × PyVal))
    (h : entriesDistinct l = true) : dictOfList l = l := by
  have := dictOfList_distinct_aux l [] h (by intro e _; simp [ukeyMem])
  simpa [dictOfList] using this

theorem ukeyMem_unwrapEntries (k : PyVal) (es : List (GVar × GVar)) :
    ukeyMem k (unwrapEntries es) = keyMem k es := by
  induction es with
  | nil => simp [ukeyMem, keyMem, unwrapEntries]
  | cons e es ih => cases e with | mk k0 w0 => simp [ukeyMem, keyMem, unwrapEntries, ih]

theorem entriesDistinct_unwrapEntries (kt : Char) (vt : Sig) :
    (es : List (GVar × GVar)) → GVar.wfDict kt vt es = true →
      entriesDistinct (unwrapEntries es) = true
  | [], _ => by simp [unwrapEntries, entriesDistinct]
  | (k, w) :: es, h => by
      simp [GVar.wfDict] at h
      obtain ⟨⟨⟨⟨_, _⟩, _⟩, hmem⟩, hrest⟩ := h
      simp [unwrapEntries, entriesDistinct, ukeyMem_unwrapEntries, hmem,
        entriesDistinct_unwrapEntries kt vt es hrest]

theorem entriesDistinct_of_uwfDict (kt : Char) (vt : Sig) :
    (es : List (PyVal × PyVal)) → uwfDict kt vt es = true → entriesDistinct es = true
  | [], _ => by simp [entriesDistinct]
  | (k, v) :: es, h => by
      simp [uwfDict] at h
      obtain ⟨⟨_, hmem⟩, hrest⟩ := h
      simp [entriesDistinct, hmem, entriesDistinct_of_uwfDict kt vt es hrest]

/-- The unwrap of a well-formed dictionary keeps its entries in order. -/
theorem unwrap_dict_of_wf (kt : Char) (vt : Sig) (es : List (GVar × GVar))
    (h : GVar.wfDict kt vt es = true) :
    unwrap_variant (.dict kt vt es) = .dict (unwrapEntries es) := by
  simp [unwrap_variant, dictOfList_distinct _ (entriesDistinct_unwrapEntries kt vt es h)]

/-! ### Round-trip lemmas between `get_variant` and `unwrap_variant` -/

theorem mkBasic_unpack {c : Char} {k : GVar} (hsig : k.sig = .basic c) (hwf : k.wf = true) :
    mkBasic c k.unpack = some k := by
  cases k with
  | int c0 n =>
      simp [GVar.sig] at hsig
      subst hsig
      simp [GVar.wf] at hwf
      simp [GVar.unpack, mkBasic, hwf]
  | str c0 s =>
      simp [GVar.sig] at hsig
      subst hsig
      simp [GVar.wf] at hwf
      simp [GVar.unpack, mkBasic, hwf]
  | box v => simp [GVar.sig] at hsig
  | tup items => simp [GVar.sig] at hsig
  | arr elem items => simp [GVar.sig] at hsig
  | dict kt vt es => simp [GVar.sig] at hsig

theorem mkBasic_of_uwf {c : Char} {p : PyVal} (h : uwf (.basic c) p = true) :
    ∃ w, mkBasic c p = some w ∧ w.wf = true ∧ w.sig = .basic c ∧ w.unpack = p ∧
      unwrap_variant w = p := by
  cases p with
  | int n =>
      simp [uwf] at h
      exact ⟨.int c n, by simp [mkBasic, h, GVar.wf, GVar.sig, GVar.unpack, unwrap_variant]⟩
  | str s =>
      simp [uwf] at h
      exact ⟨.str c s, by simp [mkBasic, h, GVar.wf, GVar.sig, GVar.unpack, unwrap_variant]⟩
  | vart v => simp [uwf] at h
  | tup items => simp [uwf] at h
  | list items => simp [uwf] at h
  | dict es => simp [uwf] at h

mutual

/-- Rebuilding a well-formed variant from its own signature and shallow
unwrap yields the variant itself. -/
theorem get_variant_unwrap : (v : GVar) → v.wf = true →
    get_variant v.sig (unwrap_variant v) = some v
  | .int c n, h => by
      simp [GVar.wf] at h
      simp [GVar.sig, unwrap_variant, get_variant, mkBasic, h]
  | .str c s, h => by
      simp [GVar.wf] at h
      simp [GVar.sig, unwrap_variant, get_variant, mkBasic, h]
  | .box v, _ => by simp [GVar.sig, unwrap_variant, get_variant]
  | .tup items, h => by
      simp [GVar.wf] at h
      simp [GVar.sig, unwrap_variant, get_variant, getTupItems_unwrap items h]
  | .arr elem items, h => by
      simp [GVar.wf] at h
      simp [GVar.sig, unwrap_variant, get_variant, getArrItems_unwrap elem items h]
  | .dict kt vt es, h => by
      simp [GVar.wf] at h
      rw [unwrap_dict_of_wf kt vt es h]
      simp [GVar.sig, get_variant, getDictEntries_unwrap kt vt es h]

theorem getTupItems_unwrap : (items : List GVar) → GVar.wfList items = true →
    getTupItems (GVar.sigList items) (unwrapList items) = some items
  | [], _ => by simp [GVar.sigList, unwrapList, getTupItems]
  | v :: vs, h => by
      simp [GVar.wfList] at h
      simp [GVar.sigList, unwrapList, getTupItems, get_variant_unwrap v h.1,
        getTupItems_unwrap vs h.2]

theorem getArrItems_unwrap : (elem : Sig) → (items : List GVar) →
    GVar.wfArr elem items = true → getArrItems elem (unwrapList items) = some items
  | _, [], _ => by simp [unwrapList, getArrItems]
  | elem, v :: vs, h => by
      simp [GVar.wfArr] at h
      obtain ⟨⟨hsig, hwf⟩, hrest⟩ := h
      have hsig2 : v.sig = elem := (Sig.beq_iff _ _).mp hsig
      have h1 := get_variant_unwrap v hwf
      rw [hsig2] at h1
      simp [unwrapList, getArrItems, h1, getArrItems_unwrap elem vs hrest]

theorem getDictEntries_unwrap : (kt : Char) → (vt : Sig) → (es : List (GVar × GVar)) →
    GVar.wfDict kt vt es = true →
    getDictEntries kt vt (unwrapEntries es) = some es
  | _, _, [], _ => by simp [unwrapEntries, getDictEntries]
  | kt, vt, (k, w) :: es, h => by
      simp [GVar.wfDict] at h
      obtain ⟨⟨⟨⟨⟨hksig, hkwf⟩, hwsig⟩, hwwf⟩, _⟩, hrest⟩ := h
      have hk : mkBasic kt k.unpack = some k :=
        mkBasic_unpack ((Sig.beq_iff _ _).mp hksig) hkwf
      have hw := get_variant_unwrap w hwwf
      rw [(Sig.beq_iff _ _).mp hwsig] at hw
      simp [unwrapEntries, getDictEntries, hk, hw, getDictEntries_unwrap kt vt es hrest]

end

mutual

/-- A value in unwrap form wraps into a well-formed variant of the intended
signature, and unwrapping that variant restores the value. -/
theorem get_variant_of_uwf : (s : Sig) → (e : PyVal) → uwf s e = true →
    ∃ w, get_variant s e = some w ∧ w.wf = true ∧ w.sig = s ∧ unwrap_variant w = e
  | .basic c, e, h => by
      obtain ⟨w, h1, h2, h3, _, h5⟩ := mkBasic_of_uwf h
      exact ⟨w, by simp [get_variant, h1], h2, h3, h5⟩
  | .var, .vart w, h => by
      simp [uwf] at h
      exact ⟨.box w, by simp [get_variant], by simp [GVar.wf, h], by simp [GVar.sig],
        by simp [unwrap_variant]⟩
  | .var, .int _, h | .var, .str _, h | .var, .tup _, h | .var, .list _, h
  | .var, .dict _, h => by simp [uwf] at h
  | .tup ss, .tup vs, h => by
      simp [uwf] at h
      obtain ⟨ws, h1, h2, h3, h4⟩ := getTupItems_of_uwf ss vs h
      exact ⟨.tup ws, by simp [get_variant, h1], by simp [GVar.wf, h2],
        by simp [GVar.sig, h3], by simp [unwrap_variant, h4]⟩
  | .tup _, .int _, h | .tup _, .str _, h | .tup _, .vart _, h | .tup _, .list _, h
  | .tup _, .dict _, h => by simp [uwf] at h
  | .arr elem, .list vs, h => by
      simp [uwf] at h
      obtain ⟨ws, h1, h2, h3⟩ := getArrItems_of_uwf elem vs h
      exact ⟨.arr elem ws, by simp [get_variant, h1], by simp [GVar.wf, h2],
        by simp [GVar.sig], by simp [unwrap_variant, h3]⟩
  | .arr _, .int _, h | .arr _, .str _, h | .arr _, .vart _, h | .arr _, .tup _, h
  | .arr _, .dict _, h => by simp [uwf] at h
  | .dict kt vt, .dict es, h => by
      have hdist := entriesDistinct_of_uwfDict kt vt es (by simpa [uwf] using h)
      simp [uwf] at h
      obtain ⟨ws, h1, h2, h3⟩ := getDictEntries_of_uwf kt vt es h
      refine ⟨.dict kt vt ws, by simp [get_variant, h1], by simp [GVar.wf, h2],
        by simp [GVar.sig], ?_⟩
      simp [unwrap_variant, h3, dictOfList_distinct es hdist]
  | .dict _ _, .int _, h | .dict _ _, .str _, h | .dict _ _, .vart _, h
  | .dict _ _, .tup _, h | .dict _ _, .list _, h => by simp [uwf] at h

theorem getTupItems_of_uwf : (ss : List Sig) → (vs : List PyVal) → uwfList ss vs = true →
    ∃ ws, getTupItems ss vs = some ws ∧ GVar.wfList ws = true ∧
      GVar.sigList ws = ss ∧ unwrapList ws = vs
  | [], [], _ => ⟨[], by simp [getTupItems], by simp [GVar.wfList],
      by simp [GVar.sigList], by simp [unwrapList]⟩
  | [], _ :: _, h => by simp [uwfList] at h
  | _ :: _, [], h => by simp [uwfList] at h
  | s :: ss, v :: vs, h => by
      simp [uwfList] at h
      obtain ⟨w, h1, h2, h3, h4⟩ := get_variant_of_uwf s v h.1
      obtain ⟨ws, g1, g2, g3, g4⟩ := getTupItems_of_uwf ss vs h.2
      exact ⟨w :: ws, by simp [getTupItems, h1, g1], by simp [GVar.wfList, h2, g2],
        by simp [GVar.sigList, h3, g3], by simp [unwrapList, h4, g4]⟩

theorem getArrItems_of_uwf : (elem : Sig) → (vs : List PyVal) → uwfArr elem vs = true →
    ∃ ws, getArrItems elem vs = some ws ∧ GVar.wfArr elem ws = true ∧
      unwrapList ws = vs
  | _, [], _ => ⟨[], by simp [getArrItems], by simp [GVar.wfArr], by simp [unwrapList]⟩
  | elem, v :: vs, h => by
      simp [uwfArr] at h
      obtain ⟨w, h1, h2, h3, h4⟩ := get_variant_of_uwf elem v h.1
      obtain ⟨ws, g1, g2, g3⟩ := getArrItems_of_uwf elem vs h.2
      refine ⟨w :: ws, by simp [getArrItems, h1, g1], ?_, by simp [unwrapList, h4, g3]⟩
      simp [GVar.wfArr, h2, g2, (Sig.beq_iff w.sig elem).mpr h3]

theorem getDictEntries_of_uwf : (kt : Char) → (vt : Sig) → (es : List (PyVal × PyVal)) →
    uwfDict kt vt es = true →
    ∃ ws, getDictEntries kt vt es = some ws ∧ GVar.wfDict kt vt ws = true ∧
      unwrapEntries ws = es
  | _, _, [], _ => ⟨[], by simp [getDictEntries], by simp [GVar.wfDict],
      by simp [unwrapEntries]⟩
  | kt, vt, (k, v) :: es, h => by
      simp [uwfDict] at h
      obtain ⟨⟨⟨hk, hv⟩, hmem⟩, hrest⟩ := h
      obtain ⟨wk, k1, k2, k3, k4, _⟩ := mkBasic_of_uwf hk
      obtain ⟨wv, v1, v2, v3, v4⟩ := get_variant_of_uwf vt v hv
      obtain ⟨ws, g1, g2, g3⟩ := getDictEntries_of_uwf kt vt es hrest
      refine ⟨(wk, wv) :: ws, by simp [getDictEntries, k1, v1, g1], ?_,
        by simp [unwrapEntries, k4, v4, g3]⟩
      have hmem2 : keyMem wk.unpack ws = false := by
        rw [← ukeyMem_unwrapEntries, g3, k4]
        exact hmem
      simp [GVar.wfDict, (Sig.beq_iff wk.sig (.basic kt)).mpr k3, k2,
        (Sig.beq_iff wv.sig vt).mpr v3, v2, hmem2, g2]

end

mutual

/-- The shallow unwrap of a well-formed variant is in unwrap form for the
variant's signature. -/
theorem uwf_of_wf : (v : GVar) → v.wf = true → uwf v.sig (unwrap_variant v) = true
  | .int c n, h => by
      simp [GVar.wf] at h
      simp [GVar.sig, unwrap_variant, uwf, h]
  | .str c s, h => by
      simp [GVar.wf] at h
      simp [GVar.sig, unwrap_variant, uwf, h]
  | .box v, h => by
      simp [GVar.wf] at h
      simp [GVar.sig, unwrap_variant, uwf, h]
  | .tup items, h => by
      simp [GVar.wf] at h
      simp [GVar.sig, unwrap_variant, uwf, uwfList_of_wfList items h]
  | .arr elem items, h => by
      simp [GVar.wf] at h
      simp [GVar.sig, unwrap_variant, uwf, uwfArr_of_wfArr elem items h]
  | .dict kt vt es, h => by
      simp [GVar.wf] at h
      rw [unwrap_dict_of_wf kt vt es h]
      simp [GVar.sig, uwf, uwfDict_of_wfDict kt vt es h]

theorem uwfList_of_wfList : (items : List GVar) → GVar.wfList items = true →
    uwfList (GVar.sigList items) (unwrapList items) = true
  | [], _ => by simp [GVar.sigList, unwrapList, uwfList]
  | v :: vs, h => by
      simp [GVar.wfList] at h
      simp [GVar.sigList, unwrapList, uwfList, uwf_of_wf v h.1, uwfList_of_wfList vs h.2]

theorem uwfArr_of_wfArr : (elem : Sig) → (items : List GVar) →
    GVar.wfArr elem items = true → uwfArr elem (unwrapList items) = true
  | _, [], _ => by simp [unwrapList, uwfArr]
  | elem, v :: vs, h => by
      simp [GVar.wfArr] at h
      obtain ⟨⟨hsig, hwf⟩, hrest⟩ := h
      have h1 := uwf_of_wf v hwf
      rw [(Sig.beq_iff _ _).mp hsig] at h1
      simp [unwrapList, uwfArr, h1, uwfArr_of_wfArr elem vs hrest]

theorem uwfDict_of_wfDict : (kt : Char) → (vt : Sig) → (es : List (GVar × GVar)) →
    GVar.wfDict kt vt es = true → uwfDict kt vt (unwrapEntries es) = true
  | _, _, [], _ => by simp [unwrapEntries, uwfDict]
  | kt, vt, (k, w) :: es, h => by
      simp [GVar.wfDict] at h
      obtain ⟨⟨⟨⟨⟨hksig, hkwf⟩, hwsig⟩, hwwf⟩, hmem⟩, hrest⟩ := h
      have hk : uwf (.basic kt) k.unpack = true := by
        cases k with
        | int c0 n =>
            have : c0 = kt := by simpa [GVar.sig, Sig.beq] using hksig
            subst this
            simp [GVar.wf] at hkwf
            simp [GVar.unpack, uwf, hkwf]
        | str c0 s =>
            have : c0 = kt := by simpa [GVar.sig, Sig.beq] using hksig
            subst this
            simp [GVar.wf] at hkwf
            simp [GVar.unpack, uwf, hkwf]
        | box v => simp [GVar.sig, Sig.beq] at hksig
        | tup items => simp [GVar.sig, Sig.beq] at hksig
        | arr elem items => simp [GVar.sig, Sig.beq] at hksig
        | dict kt2 vt2 es2 => simp [GVar.sig, Sig.beq] at hksig
      have hw : uwf vt (unwrap_variant w) = true := by
        have := uwf_of_wf w hwwf
        rwa [(Sig.beq_iff _ _).mp hwsig] at this
      simp [unwrapEntries, uwfDict, hk, hw, ukeyMem_unwrapEntries, hmem,
        uwfDict_of_wfDict kt vt es hrest]

end

/-! ### Transfer of the handle predicates across the two representations -/

theorem mkBasic_noH {c : Char} {p : PyVal} {w : GVar} (h : mkBasic c p = some w)
    (hc : (!(c == 'h')) = true) : w.noH = true := by
  cases p with
  | int n =>
      simp [mkBasic] at h
      rcases h with ⟨_, rfl⟩
      simpa [GVar.noH] using hc
  | str s =>
      simp [mkBasic] at h
      rcases h with ⟨_, rfl⟩
      simp [GVar.noH]
  | vart v => simp [mkBasic] at h
  | tup items => simp [mkBasic] at h
  | list items => simp [mkBasic] at h
  | dict es => simp [mkBasic] at h

mutual

/-- Wrapping a no-handle unwrap-form value produces a no-handle variant. -/
theorem noH_get_variant : (s : Sig) → (e : PyVal) → (w : GVar) →
    get_variant s e = some w → noHU s e = true → w.noH = true
  | .basic c, e, w => fun h hn =>
      mkBasic_noH (by simpa [get_variant] using h) (by simpa [noHU] using hn)
  | .var, .vart u, w => by
      intro h hn
      simp [get_variant] at h
      subst h
      simpa [noHU, GVar.noH] using hn
  | .var, .int _, _ | .var, .str _, _ | .var, .tup _, _ | .var, .list _, _
  | .var, .dict _, _ => by intro h _; simp [get_variant] at h
  | .tup ss, v, w => by
      intro h hn
      cases v with
      | tup vs =>
          revert h
          simp only [get_variant]
          cases hws : getTupItems ss vs with
          | none => intro h; simp at h
          | some ws =>
              intro h
              simp at h
              subst h
              simp [noHU] at hn
              simp [GVar.noH, noH_getTupItems ss vs ws hws hn]
      | int _ | str _ | vart _ | list _ | dict _ => simp [get_variant] at h
  | .arr elem, v, w => by
      intro h hn
      cases v with
      | list vs =>
          revert h
          simp only [get_variant]
          cases hws : getArrItems elem vs with
          | none => intro h; simp at h
          | some ws =>
              intro h
              simp at h
              subst h
              simp [noHU] at hn
              simp [GVar.noH, noH_getArrItems elem vs ws hws hn]
      | int _ | str _ | vart _ | tup _ | dict _ => simp [get_variant] at h
  | .dict kt vt, v, w => by
      intro h hn
      cases v with
      | dict es =>
          revert h
          simp only [get_variant]
          cases hws : getDictEntries kt vt es with
          | none => intro h; simp at h
          | some ws =>
              intro h
              simp at h
              subst h
              simp [noHU] at hn
              simp [GVar.noH, noH_getDictEntries kt vt es ws hws hn]
      | int _ | str _ | vart _ | tup _ | list _ => simp [get_variant] at h

theorem noH_getTupItems : (ss : List Sig) → (vs : List PyVal) → (ws : List GVar) →
    getTupItems ss vs = some ws → noHUList ss vs = true → GVar.noHList ws = true
  | [], [], ws => by
      intro h _
      simp [getTupItems] at h
      subst h
      simp [GVar.noHList]
  | [], _ :: _, _ => by intro h _; simp [getTupItems] at h
  | _ :: _, [], _ => by intro h _; simp [getTupItems] at h
  | s :: ss, v :: vs, ws => by
      intro h hn
      revert h
      simp only [getTupItems]
      cases hw : get_variant s v with
      | none => intro h; simp at h
      | some w =>
          cases hrest : getTupItems ss vs with
          | none => intro h; simp at h
          | some rest =>
              intro h
              simp at h
              subst h
              simp [noHUList] at hn
              simp [GVar.noHList, noH_get_variant s v w hw hn.1,
                noH_getTupItems ss vs rest hrest hn.2]

theorem noH_getArrItems : (elem : Sig) → (vs : List PyVal) → (ws : List GVar) →
    getArrItems elem vs = some ws → noHUArr elem vs = true → GVar.noHList ws = true
  | _, [], ws => by
      intro h _
      simp [getArrItems] at h
      subst h
      simp [GVar.noHList]
  | elem, v :: vs, ws => by
      intro h hn
      revert h
      simp only [getArrItems]
      cases hw : get_variant elem v with
      | none => intro h; simp at h
      | some w =>
          cases hrest : getArrItems elem vs with
          | none => intro h; simp at h
          | some rest =>
              intro h
              simp at h
              subst h
              simp [noHUArr] at hn
              simp [GVar.noHList, noH_get_variant elem v w hw hn.1,
                noH_getArrItems elem vs rest hrest hn.2]

theorem noH_getDictEntries : (kt : Char) → (vt : Sig) → (es : List (PyVal × PyVal)) →
    (ws : List (GVar × GVar)) → getDictEntries kt vt es = some ws →
    noHUDict kt vt es = true → GVar.noHEntries ws = true
  | _, _, [], ws => by
      intro h _
      simp [getDictEntries] at h
      subst h
      simp [GVar.noHEntries]
  | kt, vt, (k, v) :: es, ws => by
      intro h hn
      revert h
      simp only [getDictEntries]
      cases hk : mkBasic kt k with
      | none => intro h; simp at h
      | some wk =>
          cases hv : get_variant vt v with
          | none => intro h; simp at h
          | some wv =>
              cases hrest : getDictEntries kt vt es with
              | none => intro h; simp at h
              | some rest =>
                  intro h
                  simp at h
                  subst h
                  simp [noHUDict] at hn
                  obtain ⟨⟨hkt, hval⟩, htail⟩ := hn
                  simp [GVar.noHEntries, mkBasic_noH hk (by simp [hkt]),
                    noH_get_variant vt v wv hv hval,
                    noH_getDictEntries kt vt es rest hrest htail]

end

mutual

/-- Wrapping preserves the absence of directly nested boxed variants. -/
theorem noVV_get_variant : (s : Sig) → (e : PyVal) → (w : GVar) →
    get_variant s e = some w → noVVU s e = true → w.noVV = true
  | .basic c, e, w => by
      intro h _
      simp [get_variant] at h
      cases e with
      | int n =>
          simp [mkBasic] at h
          rcases h with ⟨_, rfl⟩
          simp [GVar.noVV]
      | str s2 =>
          simp [mkBasic] at h
          rcases h with ⟨_, rfl⟩
          simp [GVar.noVV]
      | vart v => simp [mkBasic] at h
      | tup items => simp [mkBasic] at h
      | list items => simp [mkBasic] at h
      | dict es => simp [mkBasic] at h
  | .var, .vart u, w => by
      intro h hn
      simp [get_variant] at h
      subst h
      simpa [noVVU, GVar.noVV] using hn
  | .var, .int _, _ | .var, .str _, _ | .var, .tup _, _ | .var, .list _, _
  | .var, .dict _, _ => by intro h _; simp [get_variant] at h
  | .tup ss, v, w => by
      intro h hn
      cases v with
      | tup vs =>
          revert h
          simp only [get_variant]
          cases hws : getTupItems ss vs with
          | none => intro h; simp at h
          | some ws =>
              intro h
              simp at h
              subst h
              simp [noVVU] at hn
              simp [GVar.noVV, noVV_getTupItems ss vs ws hws hn]
      | int _ | str _ | vart _ | list _ | dict _ => simp [get_variant] at h
  | .arr elem, v, w => by
      intro h hn
      cases v with
      | list vs =>
          revert h
          simp only [get_variant]
          cases hws : getArrItems elem vs with
          | none => intro h; simp at h
          | some ws =>
              intro h
              simp at h
              subst h
              simp [noVVU] at hn
              simp [GVar.noVV, noVV_getArrItems elem vs ws hws hn]
      | int _ | str _ | vart _ | tup _ | dict _ => simp [get_variant] at h
  | .dict kt vt, v, w => by
      intro h hn
      cases v with
      | dict es =>
          revert h
          simp only [get_variant]
          cases hws : getDictEntries kt vt es with
          | none => intro h; simp at h
          | some ws =>
              intro h
              simp at h
              subst h
              simp [noVVU] at hn
              simp [GVar.noVV, noVV_getDictEntries kt vt es ws hws hn]
      | int _ | str _ | vart _ | tup _ | list _ => simp [get_variant] at h

theorem noVV_getTupItems : (ss : List Sig) → (vs : List PyVal) → (ws : List GVar) →
    getTupItems ss vs = some ws → noVVUList ss vs = true → GVar.noVVList ws = true
  | [], [], ws => by
      intro h _
      simp [getTupItems] at h
      subst h
      simp [GVar.noVVList]
  | [], _ :: _, _ => by intro h _; simp [getTupItems] at h
  | _ :: _, [], _ => by intro h _; simp [getTupItems] at h
  | s :: ss, v :: vs, ws => by
      intro h hn
      revert h
      simp only [getTupItems]
      cases hw : get_variant s v with
      | none => intro h; simp at h
      | some w =>
          cases hrest : getTupItems ss vs with
          | none => intro h; simp at h
          | some rest =>
              intro h
              simp at h
              subst h
              simp [noVVUList] at hn
              simp [GVar.noVVList, noVV_get_variant s v w hw hn.1,
                noVV_getTupItems ss vs rest hrest hn.2]

theorem noVV_getArrItems : (elem : Sig) → (vs : List PyVal) → (ws : List GVar) →
    getArrItems elem vs = some ws → noVVUArr elem vs = true → GVar.noVVList ws = true
  | _, [], ws => by
      intro h _
      simp [getArrItems] at h
      subst h
      simp [GVar.noVVList]
  | elem, v :: vs, ws => by
      intro h hn
      revert h
      simp only [getArrItems]
      cases hw : get_variant elem v with
      | none => intro h; simp at h
      | some w =>
          cases hrest : getArrItems elem vs with
          | none => intro h; simp at h
          | some rest =>
              intro h
              simp at h
              subst h
              simp [noVVUArr] at hn
              simp [GVar.noVVList, noVV_get_variant elem v w hw hn.1,
                noVV_getArrItems elem vs rest hrest hn.2]

theorem noVV_getDictEntries : (kt : Char) → (vt : Sig) → (es : List (PyVal × PyVal)) →
    (ws : List (GVar × GVar)) → getDictEntries kt vt es = some ws →
    noVVUDict kt vt es = true → GVar.noVVEntries ws = true
  | _, _, [], ws => by
      intro h _
      simp [getDictEntries] at h
      subst h
      simp [GVar.noVVEntries]
  | kt, vt, (k, v) :: es, ws => by
      intro h hn
      revert h
      simp only [getDictEntries]
      cases hk : mkBasic kt k with
      | none => intro h; simp at h
      | some wk =>
          cases hv : get_variant vt v with
          | none => intro h; simp at h
          | some wv =>
              cases hrest : getDictEntries kt vt es with
              | none => intro h; simp at h
              | some rest =>
                  intro h
                  simp at h
                  subst h
                  simp [noVVUDict] at hn
                  have hwk : wk.noVV = true := by
                    cases k with
                    | int n =>
                        simp [mkBasic] at hk
                        rcases hk with ⟨_, rfl⟩
                        simp [GVar.noVV]
                    | str s2 =>
                        simp [mkBasic] at hk
                        rcases hk with ⟨_, rfl⟩
                        simp [GVar.noVV]
                    | vart v2 => simp [mkBasic] at hk
                    | tup items => simp [mkBasic] at hk
                    | list items => simp [mkBasic] at hk
                    | dict es2 => simp [mkBasic] at hk
                  simp [GVar.noVVEntries, hwk, noVV_get_variant vt v wv hv hn.1,
                    noVV_getDictEntries kt vt es rest hrest hn.2]

end

mutual

/-- Wrapping preserves the presence of an out-of-range handle index. -/
theorem hasOOR_get_variant : (fdlist : List Int) → (s : Sig) → (e : PyVal) → (w : GVar) →
    get_variant s e = some w → hasOORU fdlist s e = true → w.hasOOR fdlist = true
  | fdlist, .basic c, e, w => by
      intro h hn
      simp [get_variant] at h
      cases e with
      | int n =>
          simp [mkBasic] at h
          rcases h with ⟨_, rfl⟩
          simpa [hasOORU, GVar.hasOOR] using hn
      | str s2 => simp [hasOORU] at hn
      | vart v => simp [mkBasic] at h
      | tup items => simp [mkBasic] at h
      | list items => simp [mkBasic] at h
      | dict es => simp [mkBasic] at h
  | fdlist, .var, .vart u, w => by
      intro h hn
      simp [get_variant] at h
      subst h
      simpa [hasOORU, GVar.hasOOR] using hn
  | _, .var, .int _, _ | _, .var, .str _, _ | _, .var, .tup _, _ | _, .var, .list _, _
  | _, .var, .dict _, _ => by intro h _; simp [get_variant] at h
  | fdlist, .tup ss, v, w => by
      intro h hn
      cases v with
      | tup vs =>
          revert h
          simp only [get_variant]
          cases hws : getTupItems ss vs with
          | none => intro h; simp at h
          | some ws =>
              intro h
              simp at h
              subst h
              simp [hasOORU] at hn
              simp [GVar.hasOOR, hasOOR_getTupItems fdlist ss vs ws hws hn]
      | int _ | str _ | vart _ | list _ | dict _ => simp [get_variant] at h
  | fdlist, .arr elem, v, w => by
      intro h hn
      cases v with
      | list vs =>
          revert h
          simp only [get_variant]
          cases hws : getArrItems elem vs with
          | none => intro h; simp at h
          | some ws =>
              intro h
              simp at h
              subst h
              simp [hasOORU] at hn
              simp [GVar.hasOOR, hasOOR_getArrItems fdlist elem vs ws hws hn]
      | int _ | str _ | vart _ | tup _ | dict _ => simp [get_variant] at h
  | fdlist, .dict kt vt, v, w => by
      intro h hn
      cases v with
      | dict es =>
          revert h
          simp only [get_variant]
          cases hws : getDictEntries kt vt es with
          | none => intro h; simp at h
          | some ws =>
              intro h
              simp at h
              subst h
              simp [hasOORU] at hn
              simp [GVar.hasOOR, hasOOR_getDictEntries fdlist kt vt es ws hws hn]
      | int _ | str _ | vart _ | tup _ | list _ => simp [get_variant] at h

theorem hasOOR_getTupItems : (fdlist : List Int) → (ss : List Sig) → (vs : List PyVal) →
    (ws : List GVar) → getTupItems ss vs = some ws →
    hasOORUList fdlist ss vs = true → GVar.hasOORList fdlist ws = true
  | _, [], [], ws => by intro h hn; simp [hasOORUList] at hn
  | _, [], _ :: _, _ => by intro h _; simp [getTupItems] at h
  | _, _ :: _, [], _ => by intro h _; simp [getTupItems] at h
  | fdlist, s :: ss, v :: vs, ws => by
      intro h hn
      revert h
      simp only [getTupItems]
      cases hw : get_variant s v with
      | none => intro h; simp at h
      | some w =>
          cases hrest : getTupItems ss vs with
          | none => intro h; simp at h
          | some rest =>
              intro h
              simp at h
              subst h
              simp [hasOORUList] at hn
              rcases hn with hn | hn
              · simp [GVar.hasOORList, hasOOR_get_variant fdlist s v w hw hn]
              · simp [GVar.hasOORList, hasOOR_getTupItems fdlist ss vs rest hrest hn]

theorem hasOOR_getArrItems : (fdlist : List Int) → (elem : Sig) → (vs : List PyVal) →
    (ws : List GVar) → getArrItems elem vs = some ws →
    hasOORUArr fdlist elem vs = true → GVar.hasOORList fdlist ws = true
  | _, _, [], ws => by intro h hn; simp [hasOORUArr] at hn
  | fdlist, elem, v :: vs, ws => by
      intro h hn
      revert h
      simp only [getArrItems]
      cases hw : get_variant elem v with
      | none => intro h; simp at h
      | some w =>
          cases hrest : getArrItems elem vs with
          | none => intro h; simp at h
          | some rest =>
              intro h
              simp at h
              subst h
              simp [hasOORUArr] at hn
              rcases hn with hn | hn
              · simp [GVar.hasOORList, hasOOR_get_variant fdlist elem v w hw hn]
              · simp [GVar.hasOORList, hasOOR_getArrItems fdlist elem vs rest hrest hn]

theorem hasOOR_getDictEntries : (fdlist : List Int) → (kt : Char) → (vt : Sig) →
    (es : List (PyVal × PyVal)) → (ws : List (GVar × GVar)) →
    getDictEntries kt vt es = some ws →
    hasOORUDict fdlist kt vt es = true → GVar.hasOOREntries fdlist ws = true
  | _, _, _, [], ws => by intro h hn; simp [hasOORUDict] at hn
  | fdlist, kt, vt, (k, v) :: es, ws => by
      intro h hn
      revert h
      simp only [getDictEntries]
      cases hk : mkBasic kt k with
      | none => intro h; simp at h
      | some wk =>
          cases hv : get_variant vt v with
          | none => intro h; simp at h
          | some wv =>
              cases hrest : getDictEntries kt vt es with
              | none => intro h; simp at h
              | some rest =>
                  intro h
                  simp at h
                  subst h
                  simp [hasOORUDict] at hn
                  rcases hn with (hn | hn) | hn
                  · have hwk : wk.hasOOR fdlist = true := by
                      cases k with
                      | int n =>
                          simp [mkBasic] at hk
                          rcases hk with ⟨_, rfl⟩
                          simpa [hasOORU, GVar.hasOOR] using hn
                      | str s2 => simp [hasOORU] at hn
                      | vart v2 => simp [mkBasic] at hk
                      | tup items => simp [mkBasic] at hk
                      | list items => simp [mkBasic] at hk
                      | dict es2 => simp [mkBasic] at hk
                    simp [GVar.hasOOREntries, hwk]
                  · simp [GVar.hasOOREntries, hasOOR_get_variant fdlist vt v wv hv hn]
                  · simp [GVar.hasOOREntries,
                      hasOOR_getDictEntries fdlist kt vt es rest hrest hn]

end

/-- A well-formed string-typed basic code is never the handle code. -/
theorem stringCode_ne_h {c : Char} (h : c ∈ stringCodes) : (!(c == 'h')) = true := by
  simp [stringCodes] at h
  rcases h with rfl | rfl <;> decide

mutual

/-- Unwrapping a well-formed no-handle variant yields a no-handle value. -/
theorem noHU_of_wf : (v : GVar) → v.wf = true → v.noH = true →
    noHU v.sig (unwrap_variant v) = true
  | .int c n, _, hn => by
      simp [GVar.noH] at hn
      simp [GVar.sig, unwrap_variant, noHU, hn]
  | .str c s, hw, _ => by
      simp [GVar.wf] at hw
      simp [GVar.sig, unwrap_variant, noHU, stringCode_ne_h hw]
  | .box v, _, hn => by
      simp [GVar.noH] at hn
      simp [GVar.sig, unwrap_variant, noHU, hn]
  | .tup items, hw, hn => by
      simp [GVar.wf] at hw
      simp [GVar.noH] at hn
      simp [GVar.sig, unwrap_variant, noHU, noHUList_of_wf items hw hn]
  | .arr elem items, hw, hn => by
      simp [GVar.wf] at hw
      simp [GVar.noH] at hn
      simp [GVar.sig, unwrap_variant, noHU, noHUArr_of_wf elem items hw hn]
  | .dict kt vt es, hw, hn => by
      simp [GVar.wf] at hw
      simp [GVar.noH] at hn
      rw [unwrap_dict_of_wf kt vt es hw]
      simp [GVar.sig, noHU, noHUDict_of_wf kt vt es hw hn]

theorem noHUList_of_wf : (items : List GVar) → GVar.wfList items = true →
    GVar.noHList items = true →
    noHUList (GVar.sigList items) (unwrapList items) = true
  | [], _, _ => by simp [GVar.sigList, unwrapList, noHUList]
  | v :: vs, hw, hn => by
      simp [GVar.wfList] at hw
      simp [GVar.noHList] at hn
      simp [GVar.sigList, unwrapList, noHUList, noHU_of_wf v hw.1 hn.1,
        noHUList_of_wf vs hw.2 hn.2]

theorem noHUArr_of_wf : (elem : Sig) → (items : List GVar) →
    GVar.wfArr elem items = true → GVar.noHList items = true →
    noHUArr elem (unwrapList items) = true
  | _, [], _, _ => by simp [unwrapList, noHUArr]
  | elem, v :: vs, hw, hn => by
      simp [GVar.wfArr] at hw
      obtain ⟨⟨hsig, hwf⟩, hrest⟩ := hw
      simp [GVar.noHList] at hn
      have h1 := noHU_of_wf v hwf hn.1
      rw [(Sig.beq_iff _ _).mp hsig] at h1
      simp [unwrapList, noHUArr, h1, noHUArr_of_wf elem vs hrest hn.2]

theorem noHUDict_of_wf : (kt : Char) → (vt : Sig) → (es : List (GVar × GVar)) →
    GVar.wfDict kt vt es = true → GVar.noHEntries es = true →
    noHUDict kt vt (unwrapEntries es) = true
  | _, _, [], _, _ => by simp [unwrapEntries, noHUDict]
  | kt, vt, (k, w) :: es, hw, hn => by
      simp [GVar.wfDict] at hw
      obtain ⟨⟨⟨⟨⟨hksig, hkwf⟩, hwsig⟩, hwwf⟩, _⟩, hrest⟩ := hw
      simp [GVar.noHEntries] at hn
      obtain ⟨⟨hknoH, hwnoH⟩, htail⟩ := hn
      have hkt : (!(kt == 'h')) = true := by
        cases k with
        | int c0 n =>
            have : c0 = kt := by simpa [GVar.sig, Sig.beq] using hksig
            subst this
            simpa [GVar.noH] using hknoH
        | str c0 s =>
            have : c0 = kt := by simpa [GVar.sig, Sig.beq] using hksig
            subst this
            simp [GVar.wf] at hkwf
            exact stringCode_ne_h hkwf
        | box v => simp [GVar.sig, Sig.beq] at hksig
        | tup items => simp [GVar.sig, Sig.beq] at hksig
        | arr elem items => simp [GVar.sig, Sig.beq] at hksig
        | dict kt2 vt2 es2 => simp [GVar.sig, Sig.beq] at hksig
      have hw1 := noHU_of_wf w hwwf hwnoH
      rw [(Sig.beq_iff _ _).mp hwsig] at hw1
      simp [unwrapEntries, noHUDict, hkt, hw1, noHUDict_of_wf kt vt es hrest htail]

end

mutual

/-- Unwrapping a well-formed variant without directly nested boxed
variants yields a value without them. -/
theorem noVVU_of_wf : (v : GVar) → v.wf = true → v.noVV = true →
    noVVU v.sig (unwrap_variant v) = true
  | .int c n, _, _ => by simp [GVar.sig, unwrap_variant, noVVU]
  | .str c s, _, _ => by simp [GVar.sig, unwrap_variant, noVVU]
  | .box v, _, hn => by
      simp [GVar.noVV] at hn
      simp [GVar.sig, unwrap_variant, noVVU, hn.1, hn.2]
  | .tup items, hw, hn => by
      simp [GVar.wf] at hw
      simp [GVar.noVV] at hn
      simp [GVar.sig, unwrap_variant, noVVU, noVVUList_of_wf items hw hn]
  | .arr elem items, hw, hn => by
      simp [GVar.wf] at hw
      simp [GVar.noVV] at hn
      simp [GVar.sig, unwrap_variant, noVVU, noVVUArr_of_wf elem items hw hn]
  | .dict kt vt es, hw, hn => by
      simp [GVar.wf] at hw
      simp [GVar.noVV] at hn
      rw [unwrap_dict_of_wf kt vt es hw]
      simp [GVar.sig, noVVU, noVVUDict_of_wf kt vt es hw hn]

theorem noVVUList_of_wf : (items : List GVar) → GVar.wfList items = true →
    GVar.noVVList items = true →
    noVVUList (GVar.sigList items) (unwrapList items) = true
  | [], _, _ => by simp [GVar.sigList, unwrapList, noVVUList]
  | v :: vs, hw, hn => by
      simp [GVar.wfList] at hw
      simp [GVar.noVVList] at hn
      simp [GVar.sigList, unwrapList, noVVUList, noVVU_of_wf v hw.1 hn.1,
        noVVUList_of_wf vs hw.2 hn.2]

theorem noVVUArr_of_wf : (elem : Sig) → (items : List GVar) →
    GVar.wfArr elem items = true → GVar.noVVList items = true →
    noVVUArr elem (unwrapList items) = true
  | _, [], _, _ => by simp [unwrapList, noVVUArr]
  | elem, v :: vs, hw, hn => by
      simp [GVar.wfArr] at hw
      obtain ⟨⟨hsig, hwf⟩, hrest⟩ := hw
      simp [GVar.noVVList] at hn
      have h1 := noVVU_of_wf v hwf hn.1
      rw [(Sig.beq_iff _ _).mp hsig] at h1
      simp [unwrapList, noVVUArr, h1, noVVUArr_of_wf elem vs hrest hn.2]

theorem noVVUDict_of_wf : (kt : Char) → (vt : Sig) → (es : List (GVar × GVar)) →
    GVar.wfDict kt vt es = true → GVar.noVVEntries es = true →
    noVVUDict kt vt (unwrapEntries es) = true
  | _, _, [], _, _ => by simp [unwrapEntries, noVVUDict]
  | kt, vt, (k, w) :: es, hw, hn => by
      simp [GVar.wfDict] at hw
      obtain ⟨⟨⟨⟨⟨_, _⟩, hwsig⟩, hwwf⟩, _⟩, hrest⟩ := hw
      simp [GVar.noVVEntries] at hn
      obtain ⟨⟨_, hwnoVV⟩, htail⟩ := hn
      have hw1 := noVVU_of_wf w hwwf hwnoVV
      rw [(Sig.beq_iff _ _).mp hwsig] at hw1
      simp [unwrapEntries, noVVUDict, hw1, noVVUDict_of_wf kt vt es hrest htail]

end

mutual

/-- Unwrapping a well-formed variant preserves the presence of an
out-of-range handle index. -/
theorem hasOORU_of_wf : (fdlist : List Int) → (v : GVar) → v.wf = true →
    v.hasOOR fdlist = true → hasOORU fdlist v.sig (unwrap_variant v) = true
  | fdlist, .int c n, _, hn => by
      simp [GVar.hasOOR] at hn
      simp [GVar.sig, unwrap_variant, hasOORU, hn.1, hn.2]
  | fdlist, .str c s, _, hn => by simp [GVar.hasOOR] at hn
  | fdlist, .box v, _, hn => by
      simp [GVar.hasOOR] at hn
      simp [GVar.sig, unwrap_variant, hasOORU, hn]
  | fdlist, .tup items, hw, hn => by
      simp [GVar.wf] at hw
      simp [GVar.hasOOR] at hn
      simp [GVar.sig, unwrap_variant, hasOORU, hasOORUList_of_wf fdlist items hw hn]
  | fdlist, .arr elem items, hw, hn => by
      simp [GVar.wf] at hw
      simp [GVar.hasOOR] at hn
      simp [GVar.sig, unwrap_variant, hasOORU, hasOORUArr_of_wf fdlist elem items hw hn]
  | fdlist, .dict kt vt es, hw, hn => by
      simp [GVar.wf] at hw
      simp [GVar.hasOOR] at hn
      rw [unwrap_dict_of_wf kt vt es hw]
      simp [GVar.sig, hasOORU, hasOORUDict_of_wf fdlist kt vt es hw hn]

theorem hasOORUList_of_wf : (fdlist : List Int) → (items : List GVar) →
    GVar.wfList items = true → GVar.hasOORList fdlist items = true →
    hasOORUList fdlist (GVar.sigList items) (unwrapList items) = true
  | _, [], _, hn => by simp [GVar.hasOORList] at hn
  | fdlist, v :: vs, hw, hn => by
      simp [GVar.wfList] at hw
      simp [GVar.hasOORList] at hn
      rcases hn with hn | hn
      · simp [GVar.sigList, unwrapList, hasOORUList, hasOORU_of_wf fdlist v hw.1 hn]
      · simp [GVar.sigList, unwrapList, hasOORUList,
          hasOORUList_of_wf fdlist vs hw.2 hn]

theorem hasOORUArr_of_wf : (fdlist : List Int) → (elem : Sig) → (items : List GVar) →
    GVar.wfArr elem items = true → GVar.hasOORList fdlist items = true →
    hasOORUArr fdlist elem (unwrapList items) = true
  | _, _, [], _, hn => by simp [GVar.hasOORList] at hn
  | fdlist, elem, v :: vs, hw, hn => by
      simp [GVar.wfArr] at hw
      obtain ⟨⟨hsig, hwf⟩, hrest⟩ := hw
      simp [GVar.hasOORList] at hn
      rcases hn with hn | hn
      · have h1 := hasOORU_of_wf fdlist v hwf hn
        rw [(Sig.beq_iff _ _).mp hsig] at h1
        simp [unwrapList, hasOORUArr, h1]
      · simp [unwrapList, hasOORUArr, hasOORUArr_of_wf fdlist elem vs hrest hn]

theorem hasOORUDict_of_wf : (fdlist : List Int) → (kt : Char) → (vt : Sig) →
    (es : List (GVar × GVar)) → GVar.wfDict kt vt es = true →
    GVar.hasOOREntries fdlist es = true →
    hasOORUDict fdlist kt vt (unwrapEntries es) = true
  | _, _, _, [], _, hn => by simp [GVar.hasOOREntries] at hn
  | fdlist, kt, vt, (k, w) :: es, hw, hn => by
      simp [GVar.wfDict] at hw
      obtain ⟨⟨⟨⟨⟨hksig, hkwf⟩, hwsig⟩, hwwf⟩, _⟩, hrest⟩ := hw
      simp [GVar.hasOOREntries] at hn
      rcases hn with (hn | hn) | hn
      · have hk : hasOORU fdlist (.basic kt) k.unpack = true := by
          cases k with
          | int c0 n =>
              have : c0 = kt := by simpa [GVar.sig, Sig.beq] using hksig
              subst this
              simp [GVar.hasOOR] at hn
              simp [GVar.unpack, hasOORU, hn.1, hn.2]
          | str c0 s => simp [GVar.hasOOR] at hn
          | box v => simp [GVar.sig, Sig.beq] at hksig
          | tup items => simp [GVar.sig, Sig.beq] at hksig
          | arr elem items => simp [GVar.sig, Sig.beq] at hksig
          | dict kt2 vt2 es2 => simp [GVar.sig, Sig.beq] at hksig
        simp [unwrapEntries, hasOORUDict, hk]
      · have h1 := hasOORU_of_wf fdlist w hwwf hn
        rw [(Sig.beq_iff _ _).mp hwsig] at h1
        simp [unwrapEntries, hasOORUDict, h1]
      · simp [unwrapEntries, hasOORUDict, hasOORUDict_of_wf fdlist kt vt es hrest hn]

end

/-- Unfolds `dict_value_replace_handles` in its re-wrap branch: with a
non-handle non-variant value signature the value is re-wrapped with
`get_variant`, recursed into and unwrapped. -/
lemma dict_value_replace_handles_default (vt : Sig) (value : PyVal) (fdlist : List Int)
    (hh : vt ≠ Sig.basic 'h') (hvar : vt ≠ Sig.var)
    (w : GVar) (h1 : get_variant vt value = some w) :
    dict_value_replace_handles vt value fdlist =
      match variant_replace_handles_with_fdlist_indices w fdlist with
      | some (nnv, fdl2) => some (unwrap_variant nnv, fdl2)
      | none => none := by
  rw [dict_value_replace_handles.eq_def, if_neg hh, if_neg hvar]
  rw [h1]

/-- Unfolds `tuple_item_replace_handles` in its re-wrap branch: a tuple
element whose signature is not the handle code, an array, a dictionary or a
variant is re-wrapped with `get_variant`, recursed into and unwrapped. -/
lemma tuple_item_replace_handles_default (s : Sig) (e : PyVal) (fdlist : List Int)
    (hb : s ≠ Sig.basic 'h') (ha : ∀ t, s ≠ Sig.arr t)
    (hd : ∀ k t, s ≠ Sig.dict k t) (hv : s ≠ Sig.var)
    (w : GVar) (h1 : get_variant s e = some w) :
    tuple_item_replace_handles s e fdlist =
      match variant_replace_handles_with_fdlist_indices w fdlist with
      | some (nnv, fdl) => some (unwrap_variant nnv, fdl)
      | none => none := by
  rw [tuple_item_replace_handles.eq_def, if_neg hb]
  split
  · rename_i t
    exact absurd rfl (ha t)
  · rename_i k t
    exact absurd rfl (hd k t)
  · exact absurd rfl hv
  · rw [h1]

/-- Unfolds `array_replace_handles_with_fdlist_indices` on a dictionary
signature: the dictionary is re-wrapped with `get_variant`, recursed into
and unwrapped. -/
lemma array_replace_dict_unfold (kt : Char) (vt : Sig) (e : PyVal) (fdlist : List Int)
    (w : GVar) (h1 : get_variant (Sig.dict kt vt) e = some w) :
    array_replace_handles_with_fdlist_indices e (Sig.dict kt vt) fdlist =
      match variant_replace_handles_with_fdlist_indices w fdlist with
      | some (nnv, fdl) => some (unwrap_variant nnv, fdl)
      | none => none := by
  rw [array_replace_handles_with_fdlist_indices.eq_def]
  split
  · rename_i kt2 vt2 heq
    injection heq with hk hv2
    subst hk
    subst hv2
    rw [h1]
  · rename_i t heq
    exact Sig.noConfusion heq
  · rename_i hn1 hn2
    exact absurd rfl (hn1 kt vt)

/-- Unfolds `array_items_replace_handles` on a cons cell whose element
signature is not the variant code: the head is re-wrapped with
`get_variant`, recursed into, unwrapped and consed onto the processed
tail. -/
lemma array_items_replace_handles_cons_default (elem : Sig) (f : PyVal)
    (rest : List PyVal) (fdlist : List Int) (he : elem ≠ Sig.var)
    (w : GVar) (h1 : get_variant elem f = some w) :
    array_items_replace_handles elem (f :: rest) fdlist =
      match variant_replace_handles_with_fdlist_indices w fdlist with
      | some (nnv, fdl) =>
          match array_items_replace_handles elem rest fdl with
          | some (rest2, fdl2) => some (unwrap_variant nnv :: rest2, fdl2)
          | none => none
      | none => none := by
  rw [array_items_replace_handles.eq_def]
  simp only [if_neg he]
  rw [h1]

/-! ### The no-handle fast path of the encode direction -/

set_option maxHeartbeats 1600000 in
mutual

/-- Encoding a well-formed variant with no handle leaves, no directly
nested boxed variant and a non-`v` top-level signature leaves the variant
and the fd list unchanged. -/
theorem encode_id_variant (v : GVar) (fdlist : List Int) (hw : v.wf = true)
    (hn : v.noH = true) (hv : v.noVV = true) (hsig : v.sig ≠ Sig.var) :
    variant_replace_handles_with_fdlist_indices v fdlist = some (v, fdlist) := by
  cases v with
  | int c n =>
      simp [GVar.noH] at hn
      simp [variant_replace_handles_with_fdlist_indices, hn]
  | str c s => simp [variant_replace_handles_with_fdlist_indices]
  | box v => simp [GVar.sig] at hsig
  | tup items =>
      have h2 := get_variant_unwrap (.tup items) hw
      have hu := uwf_of_wf (.tup items) hw
      simp [GVar.wf] at hw
      simp [GVar.noH] at hn
      simp [GVar.noVV] at hv
      simp [GVar.sig, unwrap_variant] at h2 hu
      have h1 := encode_id_tupitems (GVar.sigList items) (unwrapList items) fdlist hu
        (noHUList_of_wf items hw hn) (noVVUList_of_wf items hw hv)
      simp [variant_replace_handles_with_fdlist_indices, h1, h2]
  | arr elem items =>
      have h2 := get_variant_unwrap (.arr elem items) hw
      have hu := uwf_of_wf (.arr elem items) hw
      have hnu := noHU_of_wf (.arr elem items) hw hn
      have hvu := noVVU_of_wf (.arr elem items) hw hv
      simp [GVar.sig] at h2 hu hnu hvu
      have h1 := encode_id_array_arr elem (unwrap_variant (.arr elem items)) fdlist
        (by simpa [unwrap_variant] using hu) (by simpa [unwrap_variant] using hnu)
        (by simpa [unwrap_variant] using hvu)
      simp [variant_replace_handles_with_fdlist_indices, h1, h2]
  | dict kt vt es =>
      have h2 := get_variant_unwrap (.dict kt vt es) hw
      simp [GVar.wf] at hw
      simp [GVar.noH] at hn
      simp [GVar.noVV] at hv
      rw [unwrap_dict_of_wf kt vt es hw] at h2
      simp [GVar.sig] at h2
      have h1 := encode_id_dictitems kt vt (unwrapEntries es) [] fdlist
        (uwfDict_of_wfDict kt vt es hw) (noHUDict_of_wf kt vt es hw hn)
        (noVVUDict_of_wf kt vt es hw hv) (by intro e _; simp [ukeyMem])
      simp [variant_replace_handles_with_fdlist_indices,
        dictionary_replace_handles_with_fdlist_indices,
        dictOfList_distinct _ (entriesDistinct_unwrapEntries kt vt es hw), h1, h2]

termination_by 4 * v.size + 2
decreasing_by
  · have h9 := unwrapList_size items
    simp_all only [GVar.size]
    omega
  · have h9 := unwrap_variant_size (GVar.arr elem items)
    simp_all only [GVar.size]
    omega
  · have h9 := unwrapEntries_size es
    simp_all only [GVar.size]
    omega

theorem encode_id_tupitems (ss : List Sig) (us : List PyVal) (fdlist : List Int)
    (hu : uwfList ss us = true) (hn : noHUList ss us = true)
    (hv : noVVUList ss us = true) :
    tuple_items_replace_handles ss us fdlist = some (us, fdlist) := by
  cases ss with
  | nil =>
      cases us with
      | nil => simp [tuple_items_replace_handles]
      | cons e us => simp [uwfList] at hu
  | cons s ss =>
      cases us with
      | nil => simp [uwfList] at hu
      | cons e us =>
          simp [uwfList] at hu
          simp [noHUList] at hn
          simp [noVVUList] at hv
          have h1 := encode_id_tupitem s e fdlist hu.1 hn.1 hv.1
          have h2 := encode_id_tupitems ss us fdlist hu.2 hn.2 hv.2
          simp [tuple_items_replace_handles, h1, h2]

termination_by 4 * PyVal.sizeList us + 5
decreasing_by
  all_goals
    subst_vars
    first
      | (have hg := get_variant_size _ _ _ (by assumption)
         try simp only [GVar.size, PyVal.size, PyVal.sizeList, PyVal.sizeEntries,
           GVar.sizeList, GVar.sizeEntries] at hg
         try simp only [GVar.size, PyVal.size, PyVal.sizeList, PyVal.sizeEntries,
           GVar.sizeList, GVar.sizeEntries]
         omega)
      | (simp only [GVar.size, PyVal.size, PyVal.sizeList, PyVal.sizeEntries,
           GVar.sizeList, GVar.sizeEntries]
         omega)
      | omega

theorem encode_id_tupitem (s : Sig) (e : PyVal) (fdlist : List Int)
    (hu : uwf s e = true) (hn : noHU s e = true) (hv : noVVU s e = true) :
    tuple_item_replace_handles s e fdlist = some (e, fdlist) := by
  cases s with
  | basic c =>
      by_cases hc : c = 'h'
      · subst hc
        cases e <;> simp [noHU] at hn
      · obtain ⟨w, h1, h2, h3, h4⟩ := get_variant_of_uwf (.basic c) e hu
        have h5 := encode_id_variant w fdlist h2 (noH_get_variant _ e w h1 hn)
          (noVV_get_variant _ e w h1 hv) (by rw [h3]; exact fun hcon => Sig.noConfusion hcon)
        rw [tuple_item_replace_handles_default (Sig.basic c) e fdlist
          (by intro hcon; injection hcon with h; exact hc h)
          (fun t hcon => Sig.noConfusion hcon) (fun k t hcon => Sig.noConfusion hcon)
          (fun hcon => Sig.noConfusion hcon) w h1]
        simp [h5, h4]
  | var =>
      cases e with
      | vart inner =>
          simp [uwf] at hu
          simp [noHU] at hn
          simp [noVVU] at hv
          have h1 := encode_id_variant inner fdlist hu hn
            hv.2 (fun hcon => by simp [hcon, Sig.beq] at hv)
          simp [tuple_item_replace_handles, h1]
      | int _ | str _ | tup _ | list _ | dict _ => exact Bool.noConfusion hu
  | tup ss2 =>
      obtain ⟨w, h1, h2, h3, h4⟩ := get_variant_of_uwf (.tup ss2) e hu
      have h5 := encode_id_variant w fdlist h2 (noH_get_variant _ e w h1 hn)
        (noVV_get_variant _ e w h1 hv) (by rw [h3]; exact fun hcon => Sig.noConfusion hcon)
      rw [tuple_item_replace_handles_default (Sig.tup ss2) e fdlist
        (fun hcon => Sig.noConfusion hcon)
        (fun t hcon => Sig.noConfusion hcon) (fun k t hcon => Sig.noConfusion hcon)
        (fun hcon => Sig.noConfusion hcon) w h1]
      simp [h5, h4]
  | arr elem =>
      have h1 := encode_id_array_arr elem e fdlist hu hn hv
      simp [tuple_item_replace_handles, h1]
  | dict kt vt =>
      have h1 := encode_id_array_dict kt vt e fdlist hu hn hv
      simp [tuple_item_replace_handles, h1]

termination_by 4 * e.size + 4
decreasing_by
  all_goals
    subst_vars
    first
      | (have hg := get_variant_size _ _ _ (by assumption)
         try simp only [GVar.size, PyVal.size, PyVal.sizeList, PyVal.sizeEntries,
           GVar.sizeList, GVar.sizeEntries] at hg
         try simp only [GVar.size, PyVal.size, PyVal.sizeList, PyVal.sizeEntries,
           GVar.sizeList, GVar.sizeEntries]
         omega)
      | (simp only [GVar.size, PyVal.size, PyVal.sizeList, PyVal.sizeEntries,
           GVar.sizeList, GVar.sizeEntries]
         omega)
      | omega

theorem encode_id_array_dict (kt : Char) (vt : Sig) (e : PyVal) (fdlist : List Int)
    (hu : uwf (.dict kt vt) e = true) (hn : noHU (.dict kt vt) e = true)
    (hv : noVVU (.dict kt vt) e = true) :
    array_replace_handles_with_fdlist_indices e (.dict kt vt) fdlist = some (e, fdlist) := by
  obtain ⟨w, h1, h2, h3, h4⟩ := get_variant_of_uwf (.dict kt vt) e hu
  have h5 := encode_id_variant w fdlist h2 (noH_get_variant _ e w h1 hn)
    (noVV_get_variant _ e w h1 hv) (by rw [h3]; exact fun hcon => Sig.noConfusion hcon)
  rw [array_replace_dict_unfold kt vt e fdlist w h1]
  simp [h5, h4]

termination_by 4 * e.size + 3
decreasing_by
  all_goals
    subst_vars
    first
      | (have hg := get_variant_size _ _ _ (by assumption)
         try simp only [GVar.size, PyVal.size, PyVal.sizeList, PyVal.sizeEntries,
           GVar.sizeList, GVar.sizeEntries] at hg
         try simp only [GVar.size, PyVal.size, PyVal.sizeList, PyVal.sizeEntries,
           GVar.sizeList, GVar.sizeEntries]
         omega)
      | (simp only [GVar.size, PyVal.size, PyVal.sizeList, PyVal.sizeEntries,
           GVar.sizeList, GVar.sizeEntries]
         omega)
      | omega

theorem encode_id_array_arr (elem : Sig) (e : PyVal) (fdlist : List Int)
    (hu : uwf (.arr elem) e = true) (hn : noHU (.arr elem) e = true)
    (hv : noVVU (.arr elem) e = true) :
    array_replace_handles_with_fdlist_indices e (.arr elem) fdlist = some (e, fdlist) := by
  cases e with
  | list items =>
      simp [uwf] at hu
      simp [noHU] at hn
      simp [noVVU] at hv
      have h1 := encode_id_arritems elem items fdlist hu hn hv
      simp [array_replace_handles_with_fdlist_indices, h1]
  | int _ | str _ | vart _ | tup _ | dict _ => exact Bool.noConfusion hu

termination_by 4 * e.size
decreasing_by
  all_goals
    subst_vars
    first
      | (have hg := get_variant_size _ _ _ (by assumption)
         try simp only [GVar.size, PyVal.size, PyVal.sizeList, PyVal.sizeEntries,
           GVar.sizeList, GVar.sizeEntries] at hg
         try simp only [GVar.size, PyVal.size, PyVal.sizeList, PyVal.sizeEntries,
           GVar.sizeList, GVar.sizeEntries]
         omega)
      | (simp only [GVar.size, PyVal.size, PyVal.sizeList, PyVal.sizeEntries,
           GVar.sizeList, GVar.sizeEntries]
         omega)
      | omega

theorem encode_id_arritems (elem : Sig) (items : List PyVal) (fdlist : List Int)
    (hu : uwfArr elem items = true) (hn : noHUArr elem items = true)
    (hv : noVVUArr elem items = true) :
    array_items_replace_handles elem items fdlist = some (items, fdlist) := by
  cases items with
  | nil => simp [array_items_replace_handles]
  | cons f rest =>
      simp [uwfArr] at hu
      simp [noHUArr] at hn
      simp [noVVUArr] at hv
      by_cases he : elem = Sig.var
      · subst he
        cases f with
        | vart inner =>
            have hu1 : inner.wf = true := by simpa [uwf] using hu.1
            have hn1 : inner.noH = true := by simpa [noHU] using hn.1
            have hv2 : inner.noVV = true := by
              have := hv.1
              simp [noVVU] at this
              exact this.2
            have hv1 : inner.sig ≠ Sig.var := by
              intro hcon
              have := hv.1
              simp [noVVU, hcon, Sig.beq] at this
            have h1 := encode_id_variant inner fdlist hu1 hn1 hv2 hv1
            have h2 := encode_id_arritems Sig.var rest fdlist hu.2 hn.2 hv.2
            simp [array_items_replace_handles, h1, h2]
        | int _ | str _ | tup _ | list _ | dict _ => exact Bool.noConfusion hu.1
      · obtain ⟨w, h1, h2, h3, h4⟩ := get_variant_of_uwf elem f hu.1
        have h5 := encode_id_variant w fdlist h2 (noH_get_variant _ f w h1 hn.1)
          (noVV_get_variant _ f w h1 hv.1) (by rw [h3]; exact he)
        have h6 := encode_id_arritems elem rest fdlist hu.2 hn.2 hv.2
        rw [array_items_replace_handles_cons_default elem f rest fdlist he w h1]
        simp [h5, h6, h4]

termination_by 4 * PyVal.sizeList items + 3
decreasing_by
  all_goals
    subst_vars
    first
      | (have hg := get_variant_size _ _ _ (by assumption)
         try simp only [GVar.size, PyVal.size, PyVal.sizeList, PyVal.sizeEntries,
           GVar.sizeList, GVar.sizeEntries] at hg
         try simp only [GVar.size, PyVal.size, PyVal.sizeList, PyVal.sizeEntries,
           GVar.sizeList, GVar.sizeEntries]
         omega)
      | (simp only [GVar.size, PyVal.size, PyVal.sizeList, PyVal.sizeEntries,
           GVar.sizeList, GVar.sizeEntries]
         omega)
      | omega

theorem encode_id_dictvalue (vt : Sig) (value : PyVal) (fdlist : List Int)
    (hu : uwf vt value = true) (hn : noHU vt value = true)
    (hv : noVVU vt value = true) :
    dict_value_replace_handles vt value fdlist = some (value, fdlist) := by
  by_cases hh : vt = Sig.basic 'h'
  · subst hh
    cases value <;> simp [noHU] at hn
  · by_cases hvar : vt = Sig.var
    · subst hvar
      cases value with
      | vart inner =>
          simp [uwf] at hu
          simp [noHU] at hn
          simp [noVVU] at hv
          have h1 := encode_id_variant inner fdlist hu hn
            hv.2 (fun hcon => by simp [hcon, Sig.beq] at hv)
          simp [dict_value_replace_handles, h1]
      | int _ | str _ | tup _ | list _ | dict _ => exact Bool.noConfusion hu
    · obtain ⟨w, h1, h2, h3, h4⟩ := get_variant_of_uwf vt value hu
      have h5 := encode_id_variant w fdlist h2 (noH_get_variant _ value w h1 hn)
        (noVV_get_variant _ value w h1 hv) (by rw [h3]; exact hvar)
      rw [dict_value_replace_handles_default vt value fdlist hh hvar w h1]
      simp [h5, h4]

termination_by 4 * value.size + 4
decreasing_by
  all_goals
    subst_vars
    first
      | (have hg := get_variant_size _ _ _ (by assumption)
         try simp only [GVar.size, PyVal.size, PyVal.sizeList, PyVal.sizeEntries,
           GVar.sizeList, GVar.sizeEntries] at hg
         try simp only [GVar.size, PyVal.size, PyVal.sizeList, PyVal.sizeEntries,
           GVar.sizeList, GVar.sizeEntries]
         omega)
      | (simp only [GVar.size, PyVal.size, PyVal.sizeList, PyVal.sizeEntries,
           GVar.sizeList, GVar.sizeEntries]
         omega)
      | omega

theorem encode_id_dictitems (kt : Char) (vt : Sig) (entries : List (PyVal × PyVal))
    (newdict : List (PyVal × PyVal)) (fdlist : List Int)
    (hu : uwfDict kt vt entries = true) (hn : noHUDict kt vt entries = true)
    (hv : noVVUDict kt vt entries = true)
    (hdisj : ∀ e ∈ entries, ukeyMem e.1 newdict = false) :
    dict_items_replace_handles kt vt entries newdict fdlist =
      some (newdict ++ entries, fdlist) := by
  cases entries with
  | nil => simp [dict_items_replace_handles]
  | cons e rest =>
      cases e with
      | mk k v =>
          simp [uwfDict] at hu
          obtain ⟨⟨⟨hk, hval⟩, hmem⟩, hrest⟩ := hu
          simp [noHUDict] at hn
          obtain ⟨⟨hkt, hnval⟩, hntail⟩ := hn
          simp [noVVUDict] at hv
          have hkey : dict_key_replace_handles kt k fdlist = some (k, fdlist) := by
            simp [dict_key_replace_handles]
            intro hcon
            simp [hcon] at hkt
          have h1 := encode_id_dictvalue vt v fdlist hval hnval hv.1
          have hins : dictInsert newdict k v = newdict ++ [(k, v)] :=
            dictInsert_not_mem k v newdict (hdisj (k, v) (by simp))
          have hdisj2 : ∀ e ∈ rest, ukeyMem e.1 (newdict ++ [(k, v)]) = false := by
            intro e he
            have d1 : ukeyMem e.1 newdict = false := hdisj e (by simp [he])
            have d2 : pyEqBasic e.1 k = false := (ukeyMem_eq_false_iff k rest).mp hmem e he
            have d3 : pyEqBasic k e.1 = false := by rw [pyEqBasic_comm]; exact d2
            simp [ukeyMem_append, d1, ukeyMem, d3]
          have h2 := encode_id_dictitems kt vt rest (newdict ++ [(k, v)]) fdlist
            hrest hntail hv.2 hdisj2
          simp [dict_items_replace_handles, hkey, h1, hins, h2]
termination_by 4 * PyVal.sizeEntries entries + 3
decreasing_by
  all_goals
    subst_vars
    simp only [PyVal.sizeEntries, PyVal.size]
    omega


end

/-! ### The decode direction raises on an out-of-range handle index

`fdlist[idx]` in Python raises an uncaught `IndexError` when `idx` is out
of range for `fdlist`; `none` propagates that exception through every
container loop of `variant_replace_fdlist_indices_with_handles`. -/

/-- Unfolds `dict_value_replace_indices` in its re-wrap branch. -/
lemma dict_value_replace_indices_default (vt : Sig) (value : PyVal) (fdlist : List Int)
    (hh : vt ≠ Sig.basic 'h') (hvar : vt ≠ Sig.var)
    (w : GVar) (h1 : get_variant vt value = some w) :
    dict_value_replace_indices vt value fdlist =
      match variant_replace_fdlist_indices_with_handles w fdlist with
      | some nnv => some (unwrap_variant nnv)
      | none => none := by
  rw [dict_value_replace_indices.eq_def, if_neg hh, if_neg hvar]
  rw [h1]

/-- Unfolds `tuple_item_replace_indices` in its re-wrap branch. -/
lemma tuple_item_replace_indices_default (s : Sig) (e : PyVal) (fdlist : List Int)
    (hb : s ≠ Sig.basic 'h') (ha : ∀ t, s ≠ Sig.arr t)
    (hd : ∀ k t, s ≠ Sig.dict k t) (hv : s ≠ Sig.var)
    (w : GVar) (h1 : get_variant s e = some w) :
    tuple_item_replace_indices s e fdlist =
      match variant_replace_fdlist_indices_with_handles w fdlist with
      | some nnv => some (unwrap_variant nnv)
      | none => none := by
  rw [tuple_item_replace_indices.eq_def, if_neg hb]
  split
  · rename_i t
    exact absurd rfl (ha t)
  · rename_i k t
    exact absurd rfl (hd k t)
  · exact absurd rfl hv
  · rw [h1]

/-- Unfolds `array_replace_fdlist_indices_with_handles` on a dictionary
signature. -/
lemma array_replace_indices_dict_unfold (kt : Char) (vt : Sig) (e : PyVal)
    (fdlist : List Int) (w : GVar) (h1 : get_variant (Sig.dict kt vt) e = some w) :
    array_replace_fdlist_indices_with_handles e (Sig.dict kt vt) fdlist =
      match variant_replace_fdlist_indices_with_handles w fdlist with
      | some nnv => some (unwrap_variant nnv)
      | none => none := by
  rw [array_replace_fdlist_indices_with_handles.eq_def]
  split
  · rename_i kt2 vt2 heq
    injection heq with hk hv2
    subst hk
    subst hv2
    rw [h1]
  · rename_i t heq
    exact Sig.noConfusion heq
  · rename_i hn1 hn2
    exact absurd rfl (hn1 kt vt)

/-- Unfolds `array_items_replace_indices` on a cons cell whose element
signature is not the variant code. -/
lemma array_items_replace_indices_cons_default (elem : Sig) (f : PyVal)
    (rest : List PyVal) (fdlist : List Int) (he : elem ≠ Sig.var)
    (w : GVar) (h1 : get_variant elem f = some w) :
    array_items_replace_indices elem (f :: rest) fdlist =
      match variant_replace_fdlist_indices_with_handles w fdlist with
      | some nnv =>
          match array_items_replace_indices elem rest fdlist with
          | some rest2 => some (unwrap_variant nnv :: rest2)
          | none => none
      | none => none := by
  rw [array_items_replace_indices.eq_def]
  simp only [if_neg he]
  rw [h1]


set_option maxHeartbeats 1600000 in
mutual

/-- Decoding a well-formed variant that contains a handle leaf whose stored
index is out of range for the fd list hits the uncaught `IndexError` of
`fdlist[idx]`: the result is `none`, never a recovered value. -/
theorem decode_none_variant (v : GVar) (fdlist : List Int) (hw : v.wf = true)
    (ho : v.hasOOR fdlist = true) :
    variant_replace_fdlist_indices_with_handles v fdlist = none := by
  cases v with
  | int c n =>
      simp [GVar.hasOOR, Option.isNone_iff_eq_none] at ho
      simp [variant_replace_fdlist_indices_with_handles, ho.1, ho.2]
  | str c s => simp [GVar.hasOOR] at ho
  | box w => simp [variant_replace_fdlist_indices_with_handles]
  | tup items =>
      have hu := uwf_of_wf (.tup items) hw
      simp [GVar.wf] at hw
      simp [GVar.hasOOR] at ho
      simp [GVar.sig, unwrap_variant] at hu
      have h1 := decode_none_tupitems (GVar.sigList items) (unwrapList items) fdlist hu
        (hasOORUList_of_wf fdlist items hw ho)
      simp [variant_replace_fdlist_indices_with_handles, h1]
  | arr elem items =>
      have hu := uwf_of_wf (.arr elem items) hw
      have hou := hasOORU_of_wf fdlist (.arr elem items) hw ho
      simp [GVar.sig] at hu hou
      have h1 := decode_none_array_arr elem (unwrap_variant (.arr elem items)) fdlist
        (by simpa [unwrap_variant] using hu) (by simpa [unwrap_variant] using hou)
      simp [variant_replace_fdlist_indices_with_handles, h1]
  | dict kt vt es =>
      simp [GVar.wf] at hw
      simp [GVar.hasOOR] at ho
      have h1 := decode_none_dictitems kt vt (unwrapEntries es) [] fdlist
        (uwfDict_of_wfDict kt vt es hw) (hasOORUDict_of_wf fdlist kt vt es hw ho)
      simp [variant_replace_fdlist_indices_with_handles,
        dictionary_replace_fdlist_indices_with_handles,
        dictOfList_distinct _ (entriesDistinct_unwrapEntries kt vt es hw), h1]
termination_by 4 * v.size + 2
decreasing_by
  · have h9 := unwrapList_size items
    simp_all only [GVar.size]
    omega
  · have h9 := unwrap_variant_size (GVar.arr elem items)
    simp_all only [GVar.size]
    omega
  · have h9 := unwrapEntries_size es
    simp_all only [GVar.size]
    omega

/-- `none` propagation through the decode-direction tuple loop. -/
theorem decode_none_tupitems (ss : List Sig) (us : List PyVal) (fdlist : List Int)
    (hu : uwfList ss us = true) (ho : hasOORUList fdlist ss us = true) :
    tuple_items_replace_indices ss us fdlist = none := by
  cases ss with
  | nil =>
      cases us with
      | nil => simp [hasOORUList] at ho
      | cons e us => simp [uwfList] at hu
  | cons s ss =>
      cases us with
      | nil => simp [uwfList] at hu
      | cons e us =>
          simp [uwfList] at hu
          simp [hasOORUList] at ho
          rcases ho with ho | ho
          · have h1 := decode_none_tupitem s e fdlist hu.1 ho
            simp [tuple_items_replace_indices, h1]
          · have h2 := decode_none_tupitems ss us fdlist hu.2 ho
            cases hh : tuple_item_replace_indices s e fdlist with
            | none => simp [tuple_items_replace_indices, hh]
            | some e2 => simp [tuple_items_replace_indices, hh, h2]
termination_by 4 * PyVal.sizeList us + 5
decreasing_by
  all_goals
    subst_vars
    first
      | (have hg := get_variant_size _ _ _ (by assumption)
         try simp only [GVar.size, PyVal.size, PyVal.sizeList, PyVal.sizeEntries,
           GVar.sizeList, GVar.sizeEntries] at hg
         try simp only [GVar.size, PyVal.size, PyVal.sizeList, PyVal.sizeEntries,
           GVar.sizeList, GVar.sizeEntries]
         omega)
      | (simp only [GVar.size, PyVal.size, PyVal.sizeList, PyVal.sizeEntries,
           GVar.sizeList, GVar.sizeEntries]
         omega)
      | omega

/-- `none` propagation through one decode-direction tuple element. -/
theorem decode_none_tupitem (s : Sig) (e : PyVal) (fdlist : List Int)
    (hu : uwf s e = true) (ho : hasOORU fdlist s e = true) :
    tuple_item_replace_indices s e fdlist = none := by
  cases s with
  | basic c =>
      by_cases hc : c = 'h'
      · subst hc
        cases e with
        | int n =>
            simp [hasOORU, Option.isNone_iff_eq_none] at ho
            simp [tuple_item_replace_indices, handle_leaf_restore, ho]
        | str _ | vart _ | tup _ | list _ | dict _ => simp [hasOORU] at ho
      · cases e with
        | int n => simp [hasOORU, hc] at ho
        | str _ | vart _ | tup _ | list _ | dict _ => simp [hasOORU] at ho
  | var =>
      cases e with
      | vart inner =>
          simp [uwf] at hu
          simp [hasOORU] at ho
          have h1 := decode_none_variant inner fdlist hu ho
          simp [tuple_item_replace_indices, h1]
      | int _ | str _ | tup _ | list _ | dict _ => exact Bool.noConfusion hu
  | tup ss2 =>
      obtain ⟨w, h1, h2, h3, h4⟩ := get_variant_of_uwf (.tup ss2) e hu
      have hoW := hasOOR_get_variant fdlist (.tup ss2) e w h1 ho
      have h5 := decode_none_variant w fdlist h2 hoW
      rw [tuple_item_replace_indices_default (Sig.tup ss2) e fdlist
        (fun hcon => Sig.noConfusion hcon)
        (fun t hcon => Sig.noConfusion hcon) (fun k t hcon => Sig.noConfusion hcon)
        (fun hcon => Sig.noConfusion hcon) w h1]
      simp [h5]
  | arr elem =>
      have h1 := decode_none_array_arr elem e fdlist hu ho
      simp [tuple_item_replace_indices, h1]
  | dict kt vt =>
      have h1 := decode_none_array_dict kt vt e fdlist hu ho
      simp [tuple_item_replace_indices, h1]
termination_by 4 * e.size + 4
decreasing_by
  all_goals
    subst_vars
    first
      | (have hg := get_variant_size _ _ _ (by assumption)
         try simp only [GVar.size, PyVal.size, PyVal.sizeList, PyVal.sizeEntries,
           GVar.sizeList, GVar.sizeEntries] at hg
         try simp only [GVar.size, PyVal.size, PyVal.sizeList, PyVal.sizeEntries,
           GVar.sizeList, GVar.sizeEntries]
         omega)
      | (simp only [GVar.size, PyVal.size, PyVal.sizeList, PyVal.sizeEntries,
           GVar.sizeList, GVar.sizeEntries]
         omega)
      | omega

/-- `none` propagation through the decode-direction array helper on a
dictionary signature. -/
theorem decode_none_array_dict (kt : Char) (vt : Sig) (e : PyVal) (fdlist : List Int)
    (hu : uwf (.dict kt vt) e = true) (ho : hasOORU fdlist (.dict kt vt) e = true) :
    array_replace_fdlist_indices_with_handles e (.dict kt vt) fdlist = none := by
  obtain ⟨w, h1, h2, h3, h4⟩ := get_variant_of_uwf (.dict kt vt) e hu
  have hoW := hasOOR_get_variant fdlist (.dict kt vt) e w h1 ho
  have h5 := decode_none_variant w fdlist h2 hoW
  rw [array_replace_indices_dict_unfold kt vt e fdlist w h1]
  simp [h5]
termination_by 4 * e.size + 3
decreasing_by
  all_goals
    subst_vars
    first
      | (have hg := get_variant_size _ _ _ (by assumption)
         try simp only [GVar.size, PyVal.size, PyVal.sizeList, PyVal.sizeEntries,
           GVar.sizeList, GVar.sizeEntries] at hg
         try simp only [GVar.size, PyVal.size, PyVal.sizeList, PyVal.sizeEntries,
           GVar.sizeList, GVar.sizeEntries]
         omega)
      | (simp only [GVar.size, PyVal.size, PyVal.sizeList, PyVal.sizeEntries,
           GVar.sizeList, GVar.sizeEntries]
         omega)
      | omega

/-- `none` propagation through the decode-direction array helper on an
array signature. -/
theorem decode_none_array_arr (elem : Sig) (e : PyVal) (fdlist : List Int)
    (hu : uwf (.arr elem) e = true) (ho : hasOORU fdlist (.arr elem) e = true) :
    array_replace_fdlist_indices_with_handles e (.arr elem) fdlist = none := by
  cases e with
  | list items =>
      simp [uwf] at hu
      simp [hasOORU] at ho
      have h1 := decode_none_arritems elem items fdlist hu ho
      simp [array_replace_fdlist_indices_with_handles, h1]
  | int _ | str _ | vart _ | tup _ | dict _ => exact Bool.noConfusion hu
termination_by 4 * e.size
decreasing_by
  all_goals
    subst_vars
    first
      | (have hg := get_variant_size _ _ _ (by assumption)
         try simp only [GVar.size, PyVal.size, PyVal.sizeList, PyVal.sizeEntries,
           GVar.sizeList, GVar.sizeEntries] at hg
         try simp only [GVar.size, PyVal.size, PyVal.sizeList, PyVal.sizeEntries,
           GVar.sizeList, GVar.sizeEntries]
         omega)
      | (simp only [GVar.size, PyVal.size, PyVal.sizeList, PyVal.sizeEntries,
           GVar.sizeList, GVar.sizeEntries]
         omega)
      | omega

/-- `none` propagation through the decode-direction array element loop. -/
theorem decode_none_arritems (elem : Sig) (items : List PyVal) (fdlist : List Int)
    (hu : uwfArr elem items = true) (ho : hasOORUArr fdlist elem items = true) :
    array_items_replace_indices elem items fdlist = none := by
  cases items with
  | nil => simp [hasOORUArr] at ho
  | cons f rest =>
      simp [uwfArr] at hu
      simp [hasOORUArr] at ho
      by_cases he : elem = Sig.var
      · subst he
        cases f with
        | vart inner =>
            have hu1 : inner.wf = true := by simpa [uwf] using hu.1
            rcases ho with ho | ho
            · have ho1 : inner.hasOOR fdlist = true := by simpa [hasOORU] using ho
              have h1 := decode_none_variant inner fdlist hu1 ho1
              simp [array_items_replace_indices, h1]
            · have h2 := decode_none_arritems Sig.var rest fdlist hu.2 ho
              cases hh : variant_replace_fdlist_indices_with_handles inner fdlist with
              | none => simp [array_items_replace_indices, hh]
              | some nv => simp [array_items_replace_indices, hh, h2]
        | int _ | str _ | tup _ | list _ | dict _ => exact Bool.noConfusion hu.1
      · obtain ⟨w, h1, h2, h3, h4⟩ := get_variant_of_uwf elem f hu.1
        rw [array_items_replace_indices_cons_default elem f rest fdlist he w h1]
        rcases ho with ho | ho
        · have hoW := hasOOR_get_variant fdlist elem f w h1 ho
          have h5 := decode_none_variant w fdlist h2 hoW
          simp [h5]
        · have h6 := decode_none_arritems elem rest fdlist hu.2 ho
          cases hh : variant_replace_fdlist_indices_with_handles w fdlist with
          | none => simp [hh]
          | some nnv => simp [hh, h6]
termination_by 4 * PyVal.sizeList items + 3
decreasing_by
  all_goals
    subst_vars
    first
      | (have hg := get_variant_size _ _ _ (by assumption)
         try simp only [GVar.size, PyVal.size, PyVal.sizeList, PyVal.sizeEntries,
           GVar.sizeList, GVar.sizeEntries] at hg
         try simp only [GVar.size, PyVal.size, PyVal.sizeList, PyVal.sizeEntries,
           GVar.sizeList, GVar.sizeEntries]
         omega)
      | (simp only [GVar.size, PyVal.size, PyVal.sizeList, PyVal.sizeEntries,
           GVar.sizeList, GVar.sizeEntries]
         omega)
      | omega

/-- `none` propagation through one decode-direction dictionary value. -/
theorem decode_none_dictvalue (vt : Sig) (value : PyVal) (fdlist : List Int)
    (hu : uwf vt value = true) (ho : hasOORU fdlist vt value = true) :
    dict_value_replace_indices vt value fdlist = none := by
  by_cases hh : vt = Sig.basic 'h'
  · subst hh
    cases value with
    | int idx =>
        simp [hasOORU, Option.isNone_iff_eq_none] at ho
        simp [dict_value_replace_indices, ho]
    | str _ | vart _ | tup _ | list _ | dict _ => simp [hasOORU] at ho
  · by_cases hvar : vt = Sig.var
    · subst hvar
      cases value with
      | vart inner =>
          simp [uwf] at hu
          simp [hasOORU] at ho
          have h1 := decode_none_variant inner fdlist hu ho
          simp [dict_value_replace_indices, h1]
      | int _ | str _ | tup _ | list _ | dict _ => exact Bool.noConfusion hu
    · obtain ⟨w, h1, h2, h3, h4⟩ := get_variant_of_uwf vt value hu
      have hoW := hasOOR_get_variant fdlist vt value w h1 ho
      have h5 := decode_none_variant w fdlist h2 hoW
      rw [dict_value_replace_indices_default vt value fdlist hh hvar w h1]
      simp [h5]
termination_by 4 * value.size + 4
decreasing_by
  all_goals
    subst_vars
    first
      | (have hg := get_variant_size _ _ _ (by assumption)
         try simp only [GVar.size, PyVal.size, PyVal.sizeList, PyVal.sizeEntries,
           GVar.sizeList, GVar.sizeEntries] at hg
         try simp only [GVar.size, PyVal.size, PyVal.sizeList, PyVal.sizeEntries,
           GVar.sizeList, GVar.sizeEntries]
         omega)
      | (simp only [GVar.size, PyVal.size, PyVal.sizeList, PyVal.sizeEntries,
           GVar.sizeList, GVar.sizeEntries]
         omega)
      | omega

/-- `none` propagation through the decode-direction dictionary entry loop. -/
theorem decode_none_dictitems (kt : Char) (vt : Sig) (entries : List (PyVal × PyVal))
    (newdict : List (PyVal × PyVal)) (fdlist : List Int)
    (hu : uwfDict kt vt entries = true) (ho : hasOORUDict fdlist kt vt entries = true) :
    dict_items_replace_indices kt vt entries newdict fdlist = none := by
  cases entries with
  | nil => simp [hasOORUDict] at ho
  | cons e rest =>
      cases e with
      | mk k v =>
          simp [uwfDict] at hu
          obtain ⟨⟨⟨hk, hval⟩, hmem⟩, hrest⟩ := hu
          simp [hasOORUDict] at ho
          rcases ho with (hko | hvo) | hro
          · have hkey : dict_key_replace_indices kt k fdlist = none := by
              cases k with
              | int idx =>
                  simp [hasOORU, Option.isNone_iff_eq_none] at hko
                  simp [dict_key_replace_indices, hko.1, hko.2]
              | str _ | vart _ | tup _ | list _ | dict _ => simp [hasOORU] at hko
            simp [dict_items_replace_indices, hkey]
          · have h1 := decode_none_dictvalue vt v fdlist hval hvo
            cases hkh : dict_key_replace_indices kt k fdlist with
            | none => simp [dict_items_replace_indices, hkh]
            | some k2 => simp [dict_items_replace_indices, hkh, h1]
          · cases hkh : dict_key_replace_indices kt k fdlist with
            | none => simp [dict_items_replace_indices, hkh]
            | some k2 =>
                cases hvh : dict_value_replace_indices vt v fdlist with
                | none => simp [dict_items_replace_indices, hkh, hvh]
                | some v2 =>
                    have h2 := decode_none_dictitems kt vt rest
                      (dictInsert newdict k2 v2) fdlist hrest hro
                    simp [dict_items_replace_indices, hkh, hvh, h2]
termination_by 4 * PyVal.sizeEntries entries + 3
decreasing_by
  all_goals
    subst_vars
    simp only [PyVal.sizeEntries, PyVal.size]
    omega

end

/-! ### The type system: `DBusType` from src/dasbus/typing.py -/

/-- A Python type hint as understood by `dasbus.typing`: the basic type
aliases declared at the top of the module (each a key of
`DBusType._basic_type_mapping`) and the parameterized container hints
`Tuple[...]`, `List[...]` and `Dict[..., ...]` (whose base types are the
keys of `DBusType._container_type_mapping`; `is_base_type` resolves a
parameterized hint to its container base type, which here is the head
constructor). -/
inductive TypeHint where
  | bool
  | str
  | double
  | int
  | byte
  | int16
  | uint16
  | int32
  | uint32
  | int64
  | uint64
  | unixfd
  | objpath
  | variant
  | tup (args : List TypeHint)
  | list (arg : TypeHint)
  | dict (key : TypeHint) (val : TypeHint)

mutual

/-- Size of a type hint, the termination measure for signature generation
(which recurses through `_get_container_type` at the same hint before
descending into the argument hints). -/
def TypeHint.size : TypeHint → Nat
  | .tup args => TypeHint.sizeList args + 1
  | .list arg => arg.size + 2
  | .dict key val => key.size + val.size + 3
  | _ => 1

/-- Size of a list of type hints (one node per cons cell). -/
def TypeHint.sizeList : List TypeHint → Nat
  | [] => 0
  | h :: hs => h.size + TypeHint.sizeList hs + 1

end

/-- `DBusType._is_basic_type`: membership in `_basic_type_mapping`. -/
def DBusType_is_basic_type : TypeHint → Bool
  | .bool | .str | .double | .int | .byte | .int16 | .uint16 | .int32 | .uint32
  | .int64 | .uint64 | .unixfd | .objpath | .variant => true
  | .tup _ | .list _ | .dict _ _ => false

/-- `DBusType._get_basic_type`: the single-character wire code of a basic
hint (`Bool` is `b`, `Str` is `s`, `Double` is `d`, the default integer
`Int` is `i`, the sized integers map to `y n q i u x t`, `UnixFD` is `h`,
`ObjPath` is `o` and `Variant` is `v`). -/
def DBusType_get_basic_type : TypeHint → String
  | .bool => "b"
  | .str => "s"
  | .double => "d"
  | .int => "i"
  | .byte => "y"
  | .int16 => "n"
  | .uint16 => "q"
  | .int32 => "i"
  | .uint32 => "u"
  | .int64 => "x"
  | .uint64 => "t"
  | .unixfd => "h"
  | .objpath => "o"
  | .variant => "v"
  | _ => ""

/-- `DBusType._is_container_type`: `_get_container_base_type` finds one of
`Tuple`, `List`, `Dict` through `is_base_type`. -/
def DBusType_is_container_type : TypeHint → Bool
  | .tup _ | .list _ | .dict _ _ => true
  | _ => false

/-- Is the hint the `Variant` type (the Python comparison `key == Variant`)? -/
def is_variant_hint : TypeHint → Bool
  | .variant => true
  | _ => false

/-- The `TypeError`s raised by `DBusType`. -/
inductive DBusTypeError where
  | invalidType (hint : TypeHint)
  | invalidDictKey (key : TypeHint)

/-- `DBusType._check_if_valid_dictionary`, as a test: true when the check
raises, i.e. when the key hint is a container type or the `Variant` type. -/
def DBusType_invalid_dictionary_key (key : TypeHint) : Bool :=
  DBusType_is_container_type key || is_variant_hint key

mutual

/-- `DBusType.get_dbus_representation`: basic hints map through the basic
table, container hints through `_get_container_type`, anything else raises
a `TypeError`. -/
def DBusType_get_dbus_representation (type_hint : TypeHint) : Except DBusTypeError String :=
  if DBusType_is_basic_type type_hint then .ok (DBusType_get_basic_type type_hint)
  else if DBusType_is_container_type type_hint then DBusType_get_container_type type_hint
  else .error (.invalidType type_hint)
termination_by 2 * type_hint.size + 1
decreasing_by
  all_goals simp_all [TypeHint.size, TypeHint.sizeList] <;> omega

/-- `DBusType._get_container_type`: check a dictionary key first, then
generate the representations of the argument hints and splice them into the
container template (`(%s)` for `Tuple`, `a%s` for `List`, `a{%s}` for
`Dict`). -/
def DBusType_get_container_type : TypeHint → Except DBusTypeError String
  | .tup args =>
      match DBusType_representations args with
      | .ok items => .ok ("(" ++ String.join items ++ ")")
      | .error e => .error e
  | .list arg =>
      match DBusType_representations [arg] with
      | .ok items => .ok ("a" ++ String.join items)
      | .error e => .error e
  | .dict key val =>
      if DBusType_invalid_dictionary_key key then .error (.invalidDictKey key)
      else
        match DBusType_representations [key, val] with
        | .ok items => .ok ("a\x7b" ++ String.join items ++ "\x7d")
        | .error e => .error e
  | _ => .error (.invalidType .variant)
termination_by h => 2 * h.size
decreasing_by
  all_goals simp_all [TypeHint.size, TypeHint.sizeList] <;> omega

/-- The list comprehension
`[DBusType.get_dbus_representation(arg) for arg in args]`. -/
def DBusType_representations : List TypeHint → Except DBusTypeError (List String)
  | [] => .ok []
  | h :: hs =>
      match DBusType_get_dbus_representation h, DBusType_representations hs with
      | .ok r, .ok rs => .ok (r :: rs)
      | .error e, _ => .error e
      | _, .error e => .error e
termination_by hs => 2 * TypeHint.sizeList hs + 1
decreasing_by
  all_goals simp_all [TypeHint.size, TypeHint.sizeList] <;> omega

end

/-- `dasbus.typing.get_dbus_type`: the DBus representation of a type hint. -/
def get_dbus_type (type_hint : TypeHint) : Except DBusTypeError String :=
  DBusType_get_dbus_representation type_hint

/-! ### The error mapper: src/src/dasbus/error.py -/

/-- Modelled from the spec: `get_dbus_name` (from the namespace module,
which is not among the provided sources) joins name components into a
dotted DBus name; per the spec the default rule produces "a fixed namespace
prefix plus the exception's bare class name". -/
def get_dbus_name (parts : List String) : String :=
  String.intercalate "." parts

/-- An error rule: `ErrorRule` matches one exception type (identified here
by its name) and one DBus error name exactly; `DefaultErrorRule` matches
every exception type and every error name, generating names under its
namespace and returning its default exception type.  These are the two
`AbstractErrorRule` implementations of the source. -/
inductive ErrRule where
  | rule (exception_type : String) (error_name : String)
  | dflt (default_type : String) (default_namespace : List String)

/-- `AbstractErrorRule.match_type`. -/
def ErrRule.match_type (r : ErrRule) (exception_type : String) : Bool :=
  match r with
  | .rule et _ => et == exception_type
  | .dflt _ _ => true

/-- `AbstractErrorRule.get_name`. -/
def ErrRule.get_name (r : ErrRule) (exception_type : String) : String :=
  match r with
  | .rule _ en => en
  | .dflt _ ns => get_dbus_name (ns ++ [exception_type])

/-- `AbstractErrorRule.match_name`. -/
def ErrRule.match_name (r : ErrRule) (error_name : String) : Bool :=
  match r with
  | .rule _ en => en == error_name
  | .dflt _ _ => true

/-- `AbstractErrorRule.get_type`. -/
def ErrRule.get_type (r : ErrRule) (error_name : String) : String :=
  match r with
  | .rule et _ => et
  | .dflt dt _ => dt

/-- `ErrorMapper`: the ordered rule list `_error_rules`. -/
structure ErrorMapper where
  error_rules : List ErrRule

/-- `ErrorMapper.add_rule`: append; the new rule has a higher priority than
the rules already contained in the mapper. -/
def ErrorMapper.add_rule (m : ErrorMapper) (rule : ErrRule) : ErrorMapper :=
  { error_rules := m.error_rules ++ [rule] }

/-- `ErrorMapper.reset_rules` / `__init__`: only the default rule, mapping
everything to `DBusError` under the namespace `not.known.Error`. -/
def ErrorMapper.reset_rules : ErrorMapper :=
  { error_rules := [.dflt "DBusError" ["not", "known", "Error"]] }

/-- `ErrorMapper.get_error_name`: scan the rules most-recently-added first
(`reversed(self._error_rules)`), return the name from the first rule whose
`match_type` accepts the exception type, raise `LookupError` if none does. -/
def ErrorMapper.get_error_name (m : ErrorMapper) (exception_type : String) :
    Except String String :=
  match m.error_rules.reverse.find? (fun rule => rule.match_type exception_type) with
  | some rule => .ok (rule.get_name exception_type)
  | none => .error ("No name found for " ++ exception_type ++ ".")

/-- `ErrorMapper.get_exception_type`: the symmetric reverse scan with
`match_name` and `get_type`. -/
def ErrorMapper.get_exception_type (m : ErrorMapper) (error_name : String) :
    Except String String :=
  match m.error_rules.reverse.find? (fun rule => rule.match_name error_name) with
  | some rule => .ok (rule.get_type error_name)
  | none => .error ("No type found for " ++ error_name ++ ".")

/-! ### The client handler: src/dasbus/client/handler.py -/

/-- An error raised during a DBus call, as observed through the GLib
interface the client handler uses: whether it is a `GLib.Error` whose
origin is a remote D-Bus error (`Gio.DBusError.is_remote_error`), the
embedded remote error name (`Gio.DBusError.get_remote_error`) and the
message text. -/
structure DBusCallError where
  is_glib_error : Bool
  has_remote_origin : Bool
  remote_name : String
  message : String

/-- `GLibClient.is_remote_error`: a `GLib.Error` carrying a remote DBus
error. -/
def GLibClient.is_remote_error (error : DBusCallError) : Bool :=
  error.is_glib_error && error.has_remote_origin

/-- `GLibClient.get_remote_error_name`. -/
def GLibClient.get_remote_error_name (error : DBusCallError) : String :=
  error.remote_name

/-- The transport-added message prefix `GDBus.Error:<name>: ` built by
`GLibClient.get_remote_error_message`. -/
def GLibClient.remote_error_message_head (name : String) : String :=
  "GDBus.Error" ++ ":" ++ name ++ ": "

/-- `GLibClient.get_remote_error_message`: strip the prefix
`GDBus.Error:<name>: ` (built from the error currently being handled) from
the message when the message starts with it, otherwise return the message
untouched.  Python `message.startswith(prefix)` is the character-sequence
prefix test and `message[len(prefix):]` drops that many characters. -/
def GLibClient.get_remote_error_message (error : DBusCallError) : String :=
  let name := GLibClient.get_remote_error_name error
  let message := error.message
  let pfx := GLibClient.remote_error_message_head name
  if pfx.data.isPrefixOf message.data then String.mk (message.data.drop pfx.data.length)
  else message

/-- What a call to `ClientObjectHandler._handle_method_error` raises:
either the original error, re-raised unchanged, or a newly constructed
exception of the mapped class carrying the message and the wire error name
in its `dbus_name` attribute (or the mapper's `LookupError`, propagating). -/
inductive RaisedError where
  | original (error : DBusCallError)
  | mapped (cls : String) (message : String) (dbus_name : String)
  | lookup_failed (msg : String)

/-- `ClientObjectHandler._handle_method_error`: re-raise any error that is
not a remote DBus error; otherwise look the remote error name up in the
error mapper, build an exception of the resulting class around the remote
error message, attach the wire name as `dbus_name` and raise it. -/
def ClientObjectHandler.handle_method_error (error_mapper : ErrorMapper)
    (error : DBusCallError) : RaisedError :=
  if !(GLibClient.is_remote_error error) then .original error
  else
    let name := GLibClient.get_remote_error_name error
    match error_mapper.get_exception_type name with
    | .ok cls => .mapped cls (GLibClient.get_remote_error_message error) name
    | .error msg => .lookup_failed msg

/-! ### The property proxy: src/dasbus/client/property.py -/

/-- The apostrophe character, used in the error message texts. -/
def apostrophe : Char := Char.ofNat 39

/-- The exact `AttributeError` message of an unreadable property
(the text is: Can_t read DBus property. with an apostrophe for the
underscore). -/
def cant_read_message : String :=
  "Can" ++ String.singleton apostrophe ++ "t read DBus property."

/-- The exact `AttributeError` message of an unwritable property. -/
def cant_set_message : String :=
  "Can" ++ String.singleton apostrophe ++ "t set DBus property."

/-- `PropertyProxy`: holds the optional getter and setter callables. -/
structure PropertyProxy (α β : Type) where
  getter : Option (Unit → α)
  setter : Option (α → β)

/-- `PropertyProxy.get` (through `__get__` with no owning instance): raise
`AttributeError` when there is no getter, otherwise call it. -/
def PropertyProxy.get (p : PropertyProxy α β) : Except String α :=
  match p.getter with
  | none => .error cant_read_message
  | some g => .ok (g ())

/-- `PropertyProxy.set` (through `__set__`): raise `AttributeError` when
there is no setter, otherwise call it with the value. -/
def PropertyProxy.set (p : PropertyProxy α β) (value : α) : Except String β :=
  match p.setter with
  | none => .error cant_set_message
  | some s => .ok (s value)

/-- The readable/writable flags of a property specification. -/
structure PropertySpec where
  readable : Bool
  writable : Bool

/-- `ClientObjectHandler._get_property`: build a `PropertyProxy` whose
getter is set only when the specification is readable and whose setter is
set only when it is writable. -/
def ClientObjectHandler.get_property (property_spec : PropertySpec)
    (g : Unit → α) (s : α → β) : PropertyProxy α β :=
  { getter := if property_spec.readable then some g else none,
    setter := if property_spec.writable then some s else none }

/-! ### The signal primitive: src/dasbus/signal.py -/

/-- `Signal`: the ordered list `_callbacks` of registered callbacks,
abstracted over the callback type. -/
structure Signal (κ : Type) where
  callbacks : List κ

/-- `Signal.connect`: append the callback to the registration list. -/
def Signal.connect (s : Signal κ) (callback : κ) : Signal κ :=
  { callbacks := s.callbacks ++ [callback] }

/-- `Signal.emit`: iterate over a copy of the callback list, calling each
callback with the given positional arguments; the result is the ordered
list of invocations performed, each pairing the callback with the
arguments it receives. -/
def Signal.emit (s : Signal κ) (args : Args) : List (κ × Args) :=
  s.callbacks.map (fun callback => (callback, args))

/-- `Signal.disconnect`: with no callback, clear the list; with a callback,
`list.remove` deletes its first occurrence and the `ValueError` raised for
an absent callback is swallowed (no-op). -/
def Signal.disconnect [DecidableEq κ] (s : Signal κ) (callback : Option κ) : Signal κ :=
  match callback with
  | none => { callbacks := [] }
  | some c => { callbacks := s.callbacks.erase c }

theorem map_fst_pair {κ A : Type} (l : List κ) (args : A) :
    (l.map (fun c => (c, args))).map Prod.fst = l := by
  induction l with
  | nil => rfl
  | cons c cs ih => simp [ih]

theorem count_pair_map {κ A : Type} [DecidableEq κ] [DecidableEq A]
    (l : List κ) (f : κ) (args : A) :
    (l.map (fun c => (c, args))).count (f, args) = l.count f := by
  induction l with
  | nil => simp
  | cons c cs ih =>
      by_cases h : c = f
      · subst h
        simp [List.count_cons, ih]
      · simp [List.count_cons, ih, h]

/-! ### Claim theorems -/

set_option maxHeartbeats 2000000 in
/-- C1: for each of the tested variant shapes (a scalar handle; a handle in
a tuple; a handle in an array; a handle as a dictionary key; a handle as a
dictionary value; a handle nested inside a variant nested inside an array
nested inside a dictionary), decoding the encoded variant with the handle
list produced by encoding restores exactly the original variant, with the
identical handle values at the identical structural positions:
`restore_handles(acquire_handles(v)[0], acquire_handles(v)[1]) == v`. -/
theorem C1_handle_transposition_round_trip (r w : Int) :
    handle_round_trip (.int 'h' r) ∧
    handle_round_trip (.tup [.int 'h' r]) ∧
    handle_round_trip (.arr (.basic 'h') [.int 'h' r, .int 'h' w]) ∧
    handle_round_trip (.dict 'h' (.basic 's') [(.int 'h' r, .str 's' "read")]) ∧
    handle_round_trip (.dict 's' (.basic 'h') [(.str 's' "read", .int 'h' r)]) ∧
    handle_round_trip (.dict 's' (.arr .var) [(.str 's' "fds", .arr .var [.box (.int 'h' r)])]) := by
  refine ⟨?_, ?_, ?_, ?_, ?_, ?_⟩
  · simp [handle_round_trip, acquire_handles, restore_handles,
      variant_replace_handles_with_fdlist_indices,
      variant_replace_fdlist_indices_with_handles, pyIndex]
  · simp [handle_round_trip, acquire_handles, restore_handles,
      variant_replace_handles_with_fdlist_indices,
      variant_replace_fdlist_indices_with_handles,
      tuple_items_replace_handles, tuple_item_replace_handles,
      tuple_items_replace_indices, tuple_item_replace_indices,
      handle_leaf_restore,
      unwrapList, unwrap_variant, GVar.sigList, GVar.sig,
      get_variant, getTupItems, mkBasic, numericCodes, stringCodes, pyIndex]
  · simp [handle_round_trip, acquire_handles, restore_handles,
      variant_replace_handles_with_fdlist_indices,
      variant_replace_fdlist_indices_with_handles,
      array_replace_handles_with_fdlist_indices, array_items_replace_handles,
      array_replace_fdlist_indices_with_handles, array_items_replace_indices,
      unwrapList, unwrap_variant, GVar.sigList, GVar.sig,
      get_variant, getArrItems, mkBasic, numericCodes, stringCodes, pyIndex]
  · simp [handle_round_trip, acquire_handles, restore_handles,
      variant_replace_handles_with_fdlist_indices,
      variant_replace_fdlist_indices_with_handles,
      dictionary_replace_handles_with_fdlist_indices,
      dictionary_replace_fdlist_indices_with_handles,
      dict_items_replace_handles, dict_items_replace_indices,
      dict_value_replace_handles, dict_value_replace_indices,
      dict_key_replace_handles, dict_key_replace_indices,
      dictOfList, dictInsert, unwrapEntries, GVar.unpack, unwrap_variant,
      get_variant, getDictEntries, mkBasic, numericCodes, stringCodes, pyIndex]
  · simp [handle_round_trip, acquire_handles, restore_handles,
      variant_replace_handles_with_fdlist_indices,
      variant_replace_fdlist_indices_with_handles,
      dictionary_replace_handles_with_fdlist_indices,
      dictionary_replace_fdlist_indices_with_handles,
      dict_items_replace_handles, dict_items_replace_indices,
      dict_value_replace_handles, dict_value_replace_indices,
      dict_key_replace_handles, dict_key_replace_indices,
      dictOfList, dictInsert, unwrapEntries, GVar.unpack, unwrap_variant,
      get_variant, getDictEntries, mkBasic, numericCodes, stringCodes, pyIndex]
  · simp [handle_round_trip, acquire_handles, restore_handles,
      variant_replace_handles_with_fdlist_indices,
      variant_replace_fdlist_indices_with_handles,
      dictionary_replace_handles_with_fdlist_indices,
      dictionary_replace_fdlist_indices_with_handles,
      dict_items_replace_handles, dict_items_replace_indices,
      dict_value_replace_handles, dict_value_replace_indices,
      dict_key_replace_handles, dict_key_replace_indices,
      array_replace_handles_with_fdlist_indices, array_items_replace_handles,
      array_replace_fdlist_indices_with_handles, array_items_replace_indices,
      dictOfList, dictInsert, unwrapEntries, unwrapList, GVar.unpack, unwrap_variant,
      GVar.sigList, GVar.sig,
      get_variant, getDictEntries, getArrItems, mkBasic, numericCodes, stringCodes, pyIndex]

/-- C2: counterexample to the claim as written: the handle leaf variant
`(h, 0)` is well formed and its stored index 0 is out of range for the
empty fd list, and `variant_replace_fdlist_indices_with_handles` raises the
uncaught `IndexError` of `fdlist[idx]` (modelled as `none`) — in particular
it does not return the recoverable leaf `(h, -1)`. -/
theorem C2_decode_out_of_range_counterexample :
    (GVar.int 'h' 0).wf = true ∧ (GVar.int 'h' 0).hasOOR [] = true ∧
    restore_handles (GVar.int 'h' 0) [] = none ∧
    restore_handles (GVar.int 'h' 0) [] ≠ some (GVar.int 'h' (-1)) := by
  refine ⟨by simp [GVar.wf, numericCodes], by simp [GVar.hasOOR, pyIndex], ?_, ?_⟩
  · simp [restore_handles, variant_replace_fdlist_indices_with_handles, pyIndex]
  · simp [restore_handles, variant_replace_fdlist_indices_with_handles, pyIndex]

/-- C2 (amended): for every well-formed variant containing a handle-typed
leaf whose stored index is out of range for the supplied handle list, the
decode operation `variant_replace_fdlist_indices_with_handles` propagates
the uncaught `IndexError` of the Python lookup `fdlist[idx]` — modelled as
`none` — rather than returning any variant; no recoverable `-1` indicator
is produced. -/
theorem C2_decode_out_of_range_raises (v : GVar) (fdlist : List Int)
    (hw : v.wf = true) (ho : v.hasOOR fdlist = true) :
    restore_handles v fdlist = none := by
  simpa [restore_handles] using decode_none_variant v fdlist hw ho

/-- C2: the amended theorem applied to a handle leaf inside a tuple whose
stored index 2 is out of range for the one-element fd list. -/
theorem C2_decode_out_of_range_raises_witness :
    (GVar.tup [GVar.int 'h' 2]).wf = true ∧
    (GVar.tup [GVar.int 'h' 2]).hasOOR [5] = true ∧
    restore_handles (GVar.tup [GVar.int 'h' 2]) [5] = none := by
  refine ⟨?_, ?_, ?_⟩
  · simp [GVar.wf, GVar.wfList, numericCodes]
  · simp [GVar.hasOOR, GVar.hasOORList, pyIndex]
  · exact C2_decode_out_of_range_raises (GVar.tup [GVar.int 'h' 2]) [5]
      (by simp [GVar.wf, GVar.wfList, numericCodes])
      (by simp [GVar.hasOOR, GVar.hasOORList, pyIndex])

/-- C3: counterexample to the claim as written: the variant `v` boxing the
basic variant `(i, 5)` contains zero handle-typed leaves, yet
`variant_replace_handles_with_fdlist_indices` falls through its container
dispatch to `list(unwrap_variant(v))`, and iterating the held basic variant
raises `TypeError` (modelled as `none`) instead of returning the variant
unmodified with an empty fd list. -/
theorem C3_no_handle_fast_path_counterexample :
    (GVar.box (GVar.int 'i' 5)).wf = true ∧
    (GVar.box (GVar.int 'i' 5)).noH = true ∧
    acquire_handles (GVar.box (GVar.int 'i' 5)) = none := by
  refine ⟨by simp [GVar.wf, numericCodes], by simp [GVar.noH], ?_⟩
  simp [acquire_handles, variant_replace_handles_with_fdlist_indices]

/-- C3 (amended): for every well-formed variant with no handle-typed
leaves, whose top-level signature is not `v` and in which no variant
directly boxes another variant, the encode operation returns the original
variant structurally unchanged together with the untouched fd list; in
particular `acquire_handles` returns the variant with an empty fd list. -/
theorem C3_no_handle_fast_path (v : GVar) (fdlist : List Int) (hw : v.wf = true)
    (hn : v.noH = true) (hv : v.noVV = true) (hsig : v.sig ≠ Sig.var) :
    variant_replace_handles_with_fdlist_indices v fdlist = some (v, fdlist) ∧
    acquire_handles v = some (v, []) := by
  refine ⟨encode_id_variant v fdlist hw hn hv hsig, ?_⟩
  simpa [acquire_handles] using encode_id_variant v [] hw hn hv hsig

/-- C3: the amended theorem applied to the handle-free tuple `(i, s)`
variant of `(7, "ok")`. -/
theorem C3_no_handle_fast_path_witness :
    (GVar.tup [GVar.int 'i' 7, GVar.str 's' "ok"]).noH = true ∧
    acquire_handles (GVar.tup [GVar.int 'i' 7, GVar.str 's' "ok"]) =
      some (GVar.tup [GVar.int 'i' 7, GVar.str 's' "ok"], []) := by
  refine ⟨by simp [GVar.noH, GVar.noHList], ?_⟩
  exact (C3_no_handle_fast_path (GVar.tup [GVar.int 'i' 7, GVar.str 's' "ok"]) []
    (by simp [GVar.wf, GVar.wfList, numericCodes, stringCodes])
    (by simp [GVar.noH, GVar.noHList])
    (by simp [GVar.noVV, GVar.noVVList])
    (by intro hcon; simp [GVar.sig] at hcon)).2

/-- C4: constructing a signature for a dictionary whose key descriptor is a
container type or the variant type fails with a type error, while a
dictionary from string to the default integer type succeeds with exactly
the signature a-brace-s-i-brace. -/
theorem C4_dictionary_key_restriction :
    (∀ key val : TypeHint,
        DBusType_is_container_type key = true ∨ is_variant_hint key = true →
        get_dbus_type (.dict key val) = .error (.invalidDictKey key)) ∧
    get_dbus_type (.dict .str .int) = .ok "a\x7bsi\x7d" := by
  constructor
  · intro key val h
    have hk : DBusType_invalid_dictionary_key key = true := by
      rcases h with h | h <;> simp [DBusType_invalid_dictionary_key, h]
    simp [get_dbus_type, DBusType_get_dbus_representation, DBusType_is_basic_type,
      DBusType_is_container_type, DBusType_get_container_type, hk]
  · simp [get_dbus_type, DBusType_get_dbus_representation, DBusType_is_basic_type,
      DBusType_is_container_type, DBusType_get_container_type,
      DBusType_invalid_dictionary_key, is_variant_hint, DBusType_representations,
      DBusType_get_basic_type, String.join]

/-- C4 witness: a dictionary keyed by a list of booleans is rejected with a
type error, and the string-to-int dictionary has signature
a-brace-s-i-brace. -/
theorem C4_dictionary_key_restriction_witness :
    (DBusType_is_container_type (.list .bool) = true ∨
        is_variant_hint (.list .bool) = true) ∧
    get_dbus_type (.dict (.list .bool) .bool) = .error (.invalidDictKey (.list .bool)) :=
  ⟨Or.inl rfl,
    C4_dictionary_key_restriction.1 (.list .bool) .bool (Or.inl rfl)⟩

/-- C5: the shallow unwrap decodes by signature prefix: a tuple type yields
the ordered tuple of recursively unwrapped children, a dictionary type
yields the mapping built by iterating the entries with decoded keys and
recursively unwrapped values, a plain array type yields the ordered list of
recursively unwrapped children, the variant type yields the boxed inner
variant itself unopened, and a basic type yields the scalar payload. -/
theorem C5_unwrap_variant_by_signature_prefix :
    (∀ items, unwrap_variant (.tup items) = .tup (items.map unwrap_variant)) ∧
    (∀ kt vt es, unwrap_variant (.dict kt vt es) =
      .dict (dictOfList (es.map (fun e => (e.1.unpack, unwrap_variant e.2))))) ∧
    (∀ elem items, unwrap_variant (.arr elem items) = .list (items.map unwrap_variant)) ∧
    (∀ v, unwrap_variant (.box v) = .vart v) ∧
    (∀ c n, unwrap_variant (.int c n) = .int n) ∧
    (∀ c s, unwrap_variant (.str c s) = .str s) := by
  refine ⟨?_, ?_, ?_, ?_, ?_, ?_⟩ <;>
    intros <;>
    simp [unwrap_variant, unwrapList_eq_map, unwrapEntries_eq_map]

/-- C6: adding a rule for exception type E and then a second rule for the
same E makes the type-to-name lookup return the second rule name, because
rules are scanned most-recently-added first; the name-to-type lookup is
symmetric. -/
theorem C6_error_mapping_most_recent_wins (m : ErrorMapper)
    (E nA nB TA TB N : String) :
    ((m.add_rule (.rule E nA)).add_rule (.rule E nB)).get_error_name E = .ok nB ∧
    ((m.add_rule (.rule TA N)).add_rule (.rule TB N)).get_exception_type N = .ok TB := by
  constructor
  · simp [ErrorMapper.add_rule, ErrorMapper.get_error_name, List.find?,
      ErrRule.match_type, ErrRule.get_name]
  · simp [ErrorMapper.add_rule, ErrorMapper.get_exception_type, List.find?,
      ErrRule.match_name, ErrRule.get_type]

/-- C7: an error raised during a client method call is first tested for a
remote origin; a non-remote error is re-raised unchanged and never
translated, while a remote error is re-raised as a new exception of the
class obtained by looking the wire error name up in the error mapper,
carrying the extracted message and the wire name as its dbus_name. -/
theorem C7_handle_method_error (error_mapper : ErrorMapper) (error : DBusCallError) :
    (GLibClient.is_remote_error error = false →
      ClientObjectHandler.handle_method_error error_mapper error = .original error) ∧
    (∀ cls, GLibClient.is_remote_error error = true →
      error_mapper.get_exception_type (GLibClient.get_remote_error_name error) = .ok cls →
      ClientObjectHandler.handle_method_error error_mapper error =
        .mapped cls (GLibClient.get_remote_error_message error)
          (GLibClient.get_remote_error_name error)) := by
  constructor
  · intro h
    simp [ClientObjectHandler.handle_method_error, h]
  · intro cls h hm
    simp [ClientObjectHandler.handle_method_error, h, hm]

/-- C7 witness: with the default error mapper, a transport error (not a
GLib remote error) is re-raised as is, and a remote error named my.error is
translated into the default exception class with dbus_name my.error. -/
theorem C7_handle_method_error_witness :
    (GLibClient.is_remote_error ⟨false, false, "", "timeout"⟩ = false ∧
      ClientObjectHandler.handle_method_error ErrorMapper.reset_rules
          ⟨false, false, "", "timeout"⟩ =
        .original ⟨false, false, "", "timeout"⟩) ∧
    (GLibClient.is_remote_error ⟨true, true, "my.error", "boom"⟩ = true ∧
      ErrorMapper.reset_rules.get_exception_type "my.error" = .ok "DBusError" ∧
      ClientObjectHandler.handle_method_error ErrorMapper.reset_rules
          ⟨true, true, "my.error", "boom"⟩ =
        .mapped "DBusError"
          (GLibClient.get_remote_error_message ⟨true, true, "my.error", "boom"⟩)
          "my.error") :=
  ⟨⟨rfl, (C7_handle_method_error ErrorMapper.reset_rules ⟨false, false, "", "timeout"⟩).1 rfl⟩,
    ⟨rfl, rfl,
      (C7_handle_method_error ErrorMapper.reset_rules ⟨true, true, "my.error", "boom"⟩).2
        "DBusError" rfl rfl⟩⟩

/-- C8: the remote error message extraction strips the transport prefix
GDBus.Error:(name): (space) exactly when the message starts with that
prefix built from the name of the error being handled, and returns the
message untouched otherwise. -/
theorem C8_remote_error_message_extraction (error : DBusCallError) :
    ((GLibClient.remote_error_message_head
          (GLibClient.get_remote_error_name error)).data.isPrefixOf error.message.data = true →
      GLibClient.get_remote_error_message error =
        String.mk (error.message.data.drop
          (GLibClient.remote_error_message_head (GLibClient.get_remote_error_name error)).data.length)) ∧
    ((GLibClient.remote_error_message_head
          (GLibClient.get_remote_error_name error)).data.isPrefixOf error.message.data = false →
      GLibClient.get_remote_error_message error = error.message) := by
  constructor
  · intro h
    simp [GLibClient.get_remote_error_message, h]
  · intro h
    simp [GLibClient.get_remote_error_message, h]

set_option maxRecDepth 100000 in
/-- C8 witness: a message carrying the prefix with the same name is
stripped down to the payload text, and a message embedding a different
error name is returned untouched. -/
theorem C8_remote_error_message_extraction_witness :
    ((GLibClient.remote_error_message_head "my.error").data.isPrefixOf
        ("GDBus.Error:my.error: boom" : String).data = true ∧
      GLibClient.get_remote_error_message ⟨true, true, "my.error", "GDBus.Error:my.error: boom"⟩ =
        String.mk (("GDBus.Error:my.error: boom" : String).data.drop
          (GLibClient.remote_error_message_head "my.error").data.length)) ∧
    ((GLibClient.remote_error_message_head "my.error").data.isPrefixOf
        ("GDBus.Error:other.error: boom" : String).data = false ∧
      GLibClient.get_remote_error_message
          ⟨true, true, "my.error", "GDBus.Error:other.error: boom"⟩ =
        "GDBus.Error:other.error: boom") :=
  ⟨⟨by decide,
      (C8_remote_error_message_extraction
        ⟨true, true, "my.error", "GDBus.Error:my.error: boom"⟩).1 (by decide)⟩,
    ⟨by decide,
      (C8_remote_error_message_extraction
        ⟨true, true, "my.error", "GDBus.Error:other.error: boom"⟩).2 (by decide)⟩⟩

/-- C9: a property proxy built from a readable-only specification raises an
access error with the exact message Can-apostrophe-t set DBus property. on
a set, and one built from a writable-only specification raises
Can-apostrophe-t read DBus property. on a get; neither access silently
no-ops. -/
theorem C9_property_access_errors (α β : Type) (g : Unit → α) (s : α → β) (value : α) :
    (ClientObjectHandler.get_property ⟨true, false⟩ g s).set value = .error cant_set_message ∧
    (ClientObjectHandler.get_property ⟨false, true⟩ g s).get = .error cant_read_message := by
  constructor
  · simp [ClientObjectHandler.get_property, PropertyProxy.set]
  · simp [ClientObjectHandler.get_property, PropertyProxy.get]

/-- C10: emitting a signal invokes each registered callback once per
registration, in registration order, with the same arguments, so a
callback registered N times runs N times; disconnecting it removes exactly
its first registration, so a subsequent emit runs it N-1 times; and
disconnecting a callback that was never connected leaves the registration
list unchanged without raising. -/
theorem C10_signal_connect_emit_disconnect (κ A : Type) [DecidableEq κ] [DecidableEq A]
    (s : Signal κ) (f : κ) (N : Nat) (args : A)
    (hcount : s.callbacks.count f = N) (hpos : 1 ≤ N) :
    ((s.emit args).map Prod.fst = s.callbacks ∧ (s.emit args).count (f, args) = N) ∧
    ((s.disconnect (some f)).emit args).count (f, args) = N - 1 ∧
    (∀ g, g ∉ s.callbacks → s.disconnect (some g) = s) := by
  refine ⟨⟨?_, ?_⟩, ?_, ?_⟩
  · simp only [Signal.emit]
    exact map_fst_pair s.callbacks args
  · simp [Signal.emit, count_pair_map, hcount]
  · have h1 : (s.callbacks.erase f).count f = s.callbacks.count f - 1 :=
      List.count_erase_self f s.callbacks
    simp [Signal.disconnect, Signal.emit, count_pair_map, h1, hcount]
  · intro g hg
    cases s with
    | mk cs => simp [Signal.disconnect, List.erase_of_not_mem hg]

/-- C10 witness: a signal with callbacks one, two, one; callback one is
registered twice, emit invokes it twice, after one disconnect it is
invoked once, and disconnecting the absent callback three changes
nothing. -/
theorem C10_signal_connect_emit_disconnect_witness :
    (Signal.mk [1, 2, 1] : Signal Nat).callbacks.count 1 = 2 ∧ 1 ≤ 2 ∧
    (((Signal.mk [1, 2, 1] : Signal Nat).emit (7 : Nat)).map Prod.fst = [1, 2, 1] ∧
      ((Signal.mk [1, 2, 1] : Signal Nat).emit (7 : Nat)).count (1, 7) = 2) ∧
    (((Signal.mk [1, 2, 1] : Signal Nat).disconnect (some 1)).emit (7 : Nat)).count (1, 7) = 1 ∧
    (∀ g, g ∉ (Signal.mk [1, 2, 1] : Signal Nat).callbacks →
      (Signal.mk [1, 2, 1] : Signal Nat).disconnect (some g) = Signal.mk [1, 2, 1]) :=
  ⟨by decide, by decide,
    C10_signal_connect_emit_disconnect Nat Nat (Signal.mk [1, 2, 1]) 1 2 7 (by decide) (by decide)⟩

end Dasbus
